import Mathlib

/-!
# glauthid: the configuration bridge of `glauth.go`

A shallow embedding of `updateConfig` (the projection of a caddy-auth-portal
JSON document into the in-memory glauth users and groups) together with the
properties of the published users and groups.

Modelling conventions.

* Go `string` values that come out of `json.Unmarshal` are valid UTF-8, so they
  are Lean `String`s; `[]byte(s)` is the UTF-8 encoding of `s`.
* Go `int` values are `Nat`: every integer computed by `updateConfig` is
  `1000 + i` for an index `i` of a slice, or the counter `nextGid`, which is
  incremented at most once per role of the document, so no 64-bit wrap-around
  can occur.
* A Go `map` is an association list in insertion order with distinct keys.
  `range` over a map visits the entries in an unspecified order; the order is
  chosen by a list of numbers supplied by the environment (`Env.rangeOrder`).
* `ioutil.ReadFile` and `json.Unmarshal` are library calls; their outcome is
  supplied by the environment.
* `os.Stat` in the watcher is a function of what the file system holds at the
  path (`PathState`); `os.IsNotExist` is true for `ENOENT` only.
* `updateConfigStores` lists the values of the global `activeConfig` after
  each store of `updateConfig`, in program order; it is what a reader of the
  shared struct can find there between two stores.
-/

namespace Glauthid

/-! ## Go maps -/

/-- A Go map as an association list, oldest entry first. -/
abbrev GoMap (κ υ : Type) := List (κ × υ)

namespace GoMap

/-- Lookup `m[k]` in its comma-ok form. -/
def get {κ υ : Type} [DecidableEq κ] : GoMap κ υ → κ → Option υ
  | [], _ => none
  | (k', v) :: rest, k => if k' = k then some v else get rest k

/-- Assignment `m[k] = v`: overwrite the entry of `k`, or add a new entry. -/
def set {κ υ : Type} [DecidableEq κ] : GoMap κ υ → κ → υ → GoMap κ υ
  | [], k, v => [(k, v)]
  | (k', v') :: rest, k, v =>
    if k' = k then (k', v) :: rest else (k', v') :: set rest k v

/-- The plain index expression `m[k]`: the zero value when `k` is absent. -/
def index {κ υ : Type} [DecidableEq κ] [Inhabited υ] (m : GoMap κ υ) (k : κ) : υ :=
  (m.get k).getD default

end GoMap

/-- The order in which a `range` loop visits a collection: the head is put
back at a position chosen by the next number, into the visiting order of the
tail. Every list of numbers gives a rearrangement of the entries. -/
def rangeOver {α : Type} : List Nat → List α → List α
  | _, [] => []
  | [], a :: l => a :: l
  | c :: cs, a :: l =>
    (rangeOver cs l).insertIdx (c % ((rangeOver cs l).length + 1)) a

/-! ## encoding/hex -/

namespace hex

/-- The digit table of `encoding/hex`. -/
def hextable : List Char := "0123456789abcdef".toList

/-- The function `hex.EncodeToString`: two digits per byte, high nibble first. -/
def EncodeToString (src : List Nat) : String :=
  String.mk (src.flatMap fun v => [hextable.getD (v / 16) '0', hextable.getD (v % 16) '0'])

/-- The function `fromHexChar` of `encoding/hex`: the value of one digit. -/
def fromHexChar (c : Char) : Option Nat :=
  if '0' ≤ c ∧ c ≤ '9' then some (c.toNat - '0'.toNat)
  else if 'a' ≤ c ∧ c ≤ 'f' then some (c.toNat - 'a'.toNat + 10)
  else if 'A' ≤ c ∧ c ≤ 'F' then some (c.toNat - 'A'.toNat + 10)
  else none

/-- Decoding of a digit sequence: two digits per byte, high nibble first; an
odd length or a character that is no digit is an error. -/
def decodeDigits : List Char → Option (List Nat)
  | [] => some []
  | [_] => none
  | a :: b :: rest =>
    match fromHexChar a, fromHexChar b, decodeDigits rest with
    | some hi, some lo, some bs => some ((hi * 16 + lo) :: bs)
    | _, _, _ => none

/-- The function `hex.DecodeString`, the inverse of `hex.EncodeToString`. -/
def DecodeString (s : String) : Option (List Nat) := decodeDigits s.data

end hex

/-- The conversion `[]byte(s)`: the UTF-8 bytes of a string. -/
def bytesOf (s : String) : List Nat :=
  s.data.flatMap fun c => (String.utf8EncodeChar c).map UInt8.toNat

/-! ## The source document (`caddyAuthConfig`) -/

/-- An element of `caddyAuthUser.EmailAddresses`. -/
structure EmailAddress where
  Address : String
  Domain : String
  deriving DecidableEq, Repr

/-- An element of `caddyAuthUser.Passwords`. -/
structure Password where
  Algorithm : String
  Hash : String
  deriving DecidableEq, Repr

/-- An element of `caddyAuthUser.Roles`. -/
structure Role where
  Name : String
  deriving DecidableEq, Repr

/-- The Go struct `caddyAuthUser`. -/
structure caddyAuthUser where
  Username : String
  Id : String
  EmailAddresses : List EmailAddress
  Passwords : List Password
  Roles : List Role
  deriving DecidableEq, Repr

/-- The Go struct `caddyAuthConfig`. -/
structure caddyAuthConfig where
  Revision : Int
  Users : List caddyAuthUser
  deriving DecidableEq, Repr

/-! ## The served model (`config.Config` of the glauth package) -/

namespace config

/-- The fields of `config.User` that `updateConfig` sets; the other fields
keep their zero value. -/
structure User where
  Name : String
  UIDNumber : Nat
  PrimaryGroup : Nat
  OtherGroups : List Nat
  Mail : String
  PassBcrypt : String
  deriving DecidableEq, Repr

/-- The fields of `config.Group` that `updateConfig` sets. -/
structure Group where
  Name : String
  GIDNumber : Nat
  deriving DecidableEq, Repr

/-- The fields of `config.Config` that `updateConfig` reads or writes. -/
structure Config where
  ConfigFile : String
  Debug : Bool
  Users : List User
  Groups : List Group
  deriving DecidableEq, Repr

end config

/-! ## `updateConfig` -/

/-- What `updateConfig` takes from outside the program: the file system, the
JSON decoder, and the visiting order of its `range` over the `groups` map. -/
structure Env where
  ReadFile : String → Except String (List Nat)
  Unmarshal : List Nat → Except String caddyAuthConfig
  rangeOrder : List Nat

/-- The local variables of `updateConfig` that its loops update. -/
structure ProjState where
  nextGid : Nat
  groups : GoMap String Nat
  groupsInverse : GoMap Nat String
  configUsers : List config.User
  deriving DecidableEq, Repr

/-- The locals as initialised before the loop over users: `nextGid := 1001`,
the default group in both maps, no users. -/
def initState : ProjState :=
  { nextGid := 1001
    groups := [("user", 1000)]
    groupsInverse := [(1000, "user")]
    configUsers := [] }

/-- One iteration of `for _, r := range user.Roles`: use the existing group
or make a new one. -/
def addRole (st : ProjState) (u : config.User) (r : Role) : ProjState × config.User :=
  match st.groups.get r.Name with
  | some id => (st, { u with OtherGroups := u.OtherGroups ++ [id] })
  | none =>
    ({ st with
        groups := st.groups.set r.Name st.nextGid
        groupsInverse := st.groupsInverse.set st.nextGid r.Name
        nextGid := st.nextGid + 1 },
     { u with OtherGroups := u.OtherGroups ++ [st.nextGid] })

/-- The loop `for _, r := range user.Roles`. -/
def addRoles : ProjState → config.User → List Role → ProjState × config.User
  | st, u, [] => (st, u)
  | st, u, r :: rs => addRoles (addRole st u r).1 (addRole st u r).2 rs

/-- The user record built at the top of the loop body, before the password
check: positional uid, primary group 1000, mail of the first address. -/
def newUser (i : Nat) (user : caddyAuthUser) : config.User :=
  let u : config.User :=
    { Name := user.Username
      UIDNumber := 1000 + i
      PrimaryGroup := 1000
      OtherGroups := []
      Mail := ""
      PassBcrypt := "" }
  match user.EmailAddresses with
  | [] => u
  | e :: _ => { u with Mail := e.Address }

/-- The loop `for i, user := range c.Users`, from index `i` on. An error is
the early `return fmt.Errorf(...)`. -/
def projectUsers : Nat → List caddyAuthUser → ProjState → Except String ProjState
  | _, [], st => .ok st
  | i, user :: rest, st =>
    let u := newUser i user
    match user.Passwords with
    | [] => projectUsers (i + 1) rest st
    | pw :: _ =>
      if pw.Algorithm ≠ "bcrypt" then
        .error ("invalid password type " ++ pw.Algorithm ++ " for user " ++ user.Username)
      else
        let u := { u with PassBcrypt := hex.EncodeToString (bytesOf pw.Hash) }
        let p := addRoles st u user.Roles
        projectUsers (i + 1) rest { p.1 with configUsers := p.1.configUsers ++ [p.2] }

/-- The debug line `fmt.Println(u.Name, groups)` of one user. -/
def debugLine (groupsInverse : GoMap Nat String) (u : config.User) : String :=
  u.Name ++ " [" ++
    " ".intercalate (u.OtherGroups.map fun g => groupsInverse.index g) ++ "]"

/-- The outcome of a call of `updateConfig`: the returned error, the global
`activeConfig` after the call, and the lines printed. -/
structure UpdateResult where
  err : Option String
  config : config.Config
  stdout : List String
  deriving DecidableEq, Repr

/-- The function `updateConfig`, acting on the global `activeConfig`. -/
def updateConfig (env : Env) (activeConfig : config.Config) : UpdateResult :=
  match env.ReadFile activeConfig.ConfigFile with
  | .error e => { err := some e, config := activeConfig, stdout := [] }
  | .ok bytes =>
    match env.Unmarshal bytes with
    | .error e => { err := some e, config := activeConfig, stdout := [] }
    | .ok c =>
      match projectUsers 0 c.Users initState with
      | .error e => { err := some e, config := activeConfig, stdout := [] }
      | .ok st =>
        let activeConfig := { activeConfig with Users := st.configUsers }
        let activeConfig :=
          { activeConfig with
            Groups := (rangeOver env.rangeOrder st.groups).map fun p =>
              { Name := p.1, GIDNumber := p.2 } }
        { err := none
          config := activeConfig
          stdout :=
            if activeConfig.Debug then activeConfig.Users.map (debugLine st.groupsInverse)
            else [] }

/-! ## The configuration watcher (`startConfigWatcher`) -/

namespace fsnotify

/-- The bit `fsnotify.Create` of an `fsnotify.Op`. -/
def Create : Nat := 1

/-- The bit `fsnotify.Write`. -/
def Write : Nat := 2

/-- The bit `fsnotify.Remove`. -/
def Remove : Nat := 4

/-- The bit `fsnotify.Rename`. -/
def Rename : Nat := 8

/-- The bit `fsnotify.Chmod`. -/
def Chmod : Nat := 16

/-- The struct `fsnotify.Event`: the path and the operations, a bit set. -/
structure Event where
  Name : String
  Op : Nat
  deriving DecidableEq, Repr

end fsnotify

/-- What the `select` of the watcher loop receives: an event of the file
watcher, an error of the file watcher, or a tick of the one-second ticker. -/
inductive Wakeup where
  | event (e : fsnotify.Event)
  | error (err : String)
  | tick
  deriving DecidableEq, Repr

/-- The two local flags of the watcher goroutine. -/
structure Flags where
  isChanged : Bool
  isRemoved : Bool
  deriving DecidableEq, Repr

/-- The flags at the start of the goroutine: `isChanged, isRemoved := false, false`. -/
def initFlags : Flags := { isChanged := false, isRemoved := false }

/-- The `select` statement of the watcher loop: the effect of one wakeup on
the flags. -/
def consume (w : Wakeup) (f : Flags) : Flags :=
  match w with
  | .event event =>
    if event.Op &&& fsnotify.Write = fsnotify.Write then
      { f with isChanged := true }
    else if event.Op &&& fsnotify.Remove = fsnotify.Remove then
      { isChanged := true, isRemoved := true }
    else f
  | .error _ => f
  | .tick => f

/-- The state after the reload part of one loop iteration: the flags, the
global `activeConfig`, the number of calls of `watcher.Add` and the number of
calls of `updateConfig` made in the iteration. -/
structure ReloadResult where
  flags : Flags
  config : config.Config
  rewatched : Nat
  reloads : Nat
  deriving DecidableEq, Repr

/-- The `if` that follows the `select`: `notExist` is the value of
`os.IsNotExist(err)` for the `os.Stat` of the configuration file. -/
def reload (env : Env) (notExist : Bool) (f : Flags) (activeConfig : config.Config) :
    ReloadResult :=
  if !notExist && (f.isRemoved || f.isChanged) then
    let rewatch := f.isRemoved
    let f : Flags := if f.isRemoved then { isChanged := true, isRemoved := false } else f
    if f.isChanged then
      { flags := { f with isChanged := false }
        config := (updateConfig env activeConfig).config
        rewatched := if rewatch then 1 else 0
        reloads := 1 }
    else
      { flags := f, config := activeConfig, rewatched := if rewatch then 1 else 0, reloads := 0 }
  else
    { flags := f, config := activeConfig, rewatched := 0, reloads := 0 }

namespace syscall

/-- The error numbers with which the `stat` system call fails on a path. -/
inductive Errno where
  | ENOENT
  | ENOTDIR
  | EACCES
  deriving DecidableEq, Repr

end syscall

/-- What the file system holds at the path of the configuration file when
`os.Stat` is called: the file; no entry of that name; a component of the path
prefix that is a file and not a directory, so that the path names nothing; or
a directory of the path prefix that denies search permission, the file being
there or not. -/
inductive PathState where
  | file
  | missing
  | underFile
  | unsearchable (there : Bool)
  deriving DecidableEq, Repr

/-- Whether the path names an existing file. -/
def PathState.present : PathState → Bool
  | .file => true
  | .missing => false
  | .underFile => false
  | .unsearchable there => there

namespace os

/-- The error result of `os.Stat(activeConfig.ConfigFile)`; `none` is `nil`. -/
def Stat : PathState → Option syscall.Errno
  | .file => none
  | .missing => some .ENOENT
  | .underFile => some .ENOTDIR
  | .unsearchable _ => some .EACCES

/-- The function `os.IsNotExist`: true for the error number `ENOENT` only. -/
def IsNotExist (err : Option syscall.Errno) : Bool :=
  match err with
  | some .ENOENT => true
  | _ => false

end os

/-- One iteration of the watcher loop: the `select`, then the `os.Stat` of
the configuration file and the reload part. -/
def watcherIteration (env : Env) (w : Wakeup) (path : PathState) (f : Flags)
    (activeConfig : config.Config) : ReloadResult :=
  reload env (os.IsNotExist (os.Stat path)) (consume w f) activeConfig

/-! ## The stores of `updateConfig` to the served configuration -/

/-- The loop `for group, gid := range groups` seen store by store: the value
of `activeConfig` after each `append` to `activeConfig.Groups`. -/
def appendGroups : config.Config → List (String × Nat) → List config.Config
  | _, [] => []
  | activeConfig, p :: rest =>
    let activeConfig :=
      { activeConfig with
        Groups := activeConfig.Groups ++ [{ Name := p.1, GIDNumber := p.2 }] }
    activeConfig :: appendGroups activeConfig rest

/-- The end of `updateConfig` seen store by store: the value of the global
`activeConfig` after `activeConfig.Users = configUsers`, after
`activeConfig.Groups = make(...)`, and after each `append` of the loop over
the `groups` map, visited in the order `entries`. -/
def installStores (activeConfig : config.Config) (configUsers : List config.User)
    (entries : List (String × Nat)) : List config.Config :=
  let afterUsers := { activeConfig with Users := configUsers }
  let afterMake := { afterUsers with Groups := [] }
  afterUsers :: afterMake :: appendGroups afterMake entries

/-- The values that the global `activeConfig`, the struct handed to the LDAP
server, takes during a call of `updateConfig`, one per store, in program
order. The error returns precede every store. -/
def updateConfigStores (env : Env) (activeConfig : config.Config) : List config.Config :=
  match env.ReadFile activeConfig.ConfigFile with
  | .error _ => []
  | .ok bytes =>
    match env.Unmarshal bytes with
    | .error _ => []
    | .ok c =>
      match projectUsers 0 c.Users initState with
      | .error _ => []
      | .ok st => installStores activeConfig st.configUsers (rangeOver env.rangeOrder st.groups)

/-! ## Vocabulary of the specification -/

/-- A source user is kept by the projection when its passwords list is
non-empty. -/
def hasPassword (user : caddyAuthUser) : Bool :=
  match user.Passwords with
  | [] => false
  | _ :: _ => true

/-- A source user whose first password entry names an algorithm other than
`bcrypt`. -/
def rejected (user : caddyAuthUser) : Prop :=
  ∃ pw, user.Passwords.head? = some pw ∧ pw.Algorithm ≠ "bcrypt"

/-- The source users that are kept, each with its 0-based index in the
source array, numbering from `i`. -/
def keptFrom (i : Nat) (users : List caddyAuthUser) : List (Nat × caddyAuthUser) :=
  (users.enumFrom i).filter fun p => hasPassword p.2

/-- The role names of a user, in the order they are listed. -/
def rolesOf (user : caddyAuthUser) : List String := user.Roles.map Role.Name

/-- All role names of the document: users in source order, roles in order
within each user. -/
def allRoleNames (users : List caddyAuthUser) : List String :=
  users.flatMap rolesOf

/-- The role names listed by the users that are kept. -/
def keptRoleNames (users : List caddyAuthUser) : List String :=
  (users.filter hasPassword).flatMap rolesOf

/-- The names `seen` followed by the names of `names` that are new, in order
of first appearance. -/
def firstSeen (seen names : List String) : List String :=
  names.foldl (fun acc n => if n ∈ acc then acc else acc ++ [n]) seen

/-- The distinct names of a list in order of first appearance. -/
def distinctInOrder (names : List String) : List String := firstSeen [] names

/-- The projection of one kept source user, given its index and the final
`groups` map. -/
def projected (groups : GoMap String Nat) (p : Nat × caddyAuthUser) : config.User :=
  { Name := p.2.Username
    UIDNumber := 1000 + p.1
    PrimaryGroup := 1000
    OtherGroups := p.2.Roles.map fun r => groups.index r.Name
    Mail :=
      match p.2.EmailAddresses with
      | [] => ""
      | e :: _ => e.Address
    PassBcrypt :=
      match p.2.Passwords with
      | [] => ""
      | pw :: _ => hex.EncodeToString (bytesOf pw.Hash) }

/-- The `groups` map holds the names `keys`, numbered from 1000 in order, and
`nextGid` is the next free number. -/
def Numbered (st : ProjState) (keys : List String) : Prop :=
  st.groups = keys.zip (List.range' 1000 keys.length) ∧ st.nextGid = 1000 + keys.length

/-- The group record appended for one entry of the `groups` map. -/
def toGroup (p : String × Nat) : config.Group := { Name := p.1, GIDNumber := p.2 }

/-! ## Sample documents -/

/-- An environment in which the configuration file is read and decodes to the
document `c`, and `range` visits the map in the order given by `order`. -/
def envOf (c : caddyAuthConfig) (order : List Nat) : Env :=
  { ReadFile := fun _ => .ok []
    Unmarshal := fun _ => .ok c
    rangeOrder := order }

/-- A configuration that already serves one user and two groups. -/
def servedBefore : config.Config :=
  { ConfigFile := "users.json"
    Debug := false
    Users := [{ Name := "old", UIDNumber := 1000, PrimaryGroup := 1000, OtherGroups := [1001],
                Mail := "", PassBcrypt := "6f" }]
    Groups := [{ Name := "user", GIDNumber := 1000 }, { Name := "staff", GIDNumber := 1001 }] }

/-- A source user with the given name, passwords and role names. -/
def sourceUser (name : String) (pws : List Password) (roles : List String) : caddyAuthUser :=
  { Username := name, Id := "", EmailAddresses := [], Passwords := pws,
    Roles := roles.map Role.mk }

/-- One user whose only password is of algorithm `plain`. -/
def docPlain : caddyAuthConfig :=
  { Revision := 1, Users := [sourceUser "a" [⟨"plain", "p"⟩] []] }

/-- One user whose first password is `bcrypt` and whose second is `plain`. -/
def docSecondPlain : caddyAuthConfig :=
  { Revision := 1, Users := [sourceUser "a" [⟨"bcrypt", "h"⟩, ⟨"plain", "p"⟩] []] }

/-- User `a` without passwords, then user `b` with a bcrypt password. -/
def docSkipped : caddyAuthConfig :=
  { Revision := 1, Users := [sourceUser "a" [] [], sourceUser "b" [⟨"bcrypt", "h"⟩] []] }

/-- User `a` with roles admin, ops and user `b` with roles ops, admin. -/
def docRoles : caddyAuthConfig :=
  { Revision := 1,
    Users := [sourceUser "a" [⟨"bcrypt", "h"⟩] ["admin", "ops"],
              sourceUser "b" [⟨"bcrypt", "h"⟩] ["ops", "admin"]] }

/-- User `a` without passwords and role x, then user `b` with a bcrypt password
and roles user, y. -/
def docSkippedRoles : caddyAuthConfig :=
  { Revision := 1,
    Users := [sourceUser "a" [] ["x"], sourceUser "b" [⟨"bcrypt", "h"⟩] ["user", "y"]] }

/-- Two users of the same name, both with a bcrypt password. -/
def docTwins : caddyAuthConfig :=
  { Revision := 1,
    Users := [sourceUser "a" [⟨"bcrypt", "h"⟩] [], sourceUser "a" [⟨"bcrypt", "k"⟩] []] }

/-- The minimal document: user `a` with bcrypt hash `h` and no roles. -/
def docMinimal : caddyAuthConfig :=
  { Revision := 1, Users := [sourceUser "a" [⟨"bcrypt", "h"⟩] []] }

/-- One user whose bcrypt password entry has an empty hash. -/
def docEmptyHash : caddyAuthConfig :=
  { Revision := 1, Users := [sourceUser "a" [⟨"bcrypt", ""⟩] []] }

/-- One user that lists the role admin twice. -/
def docRoleTwice : caddyAuthConfig :=
  { Revision := 1, Users := [sourceUser "a" [⟨"bcrypt", "h"⟩] ["admin", "admin"]] }

/-- The document with an empty users array. -/
def docEmpty : caddyAuthConfig := { Revision := 1, Users := [] }

/-! ## Go maps: lookup and assignment -/

theorem GoMap.get_eq_none_iff {κ υ : Type} [DecidableEq κ] (m : GoMap κ υ) (k : κ) :
    m.get k = none ↔ k ∉ m.map Prod.fst := by
  induction m with
  | nil => simp [GoMap.get]
  | cons e m ih =>
    obtain ⟨k', v⟩ := e
    by_cases h : k' = k
    · simp [GoMap.get, h]
    · simp [GoMap.get, h, ih, Ne.symm h]

theorem GoMap.mem_of_get {κ υ : Type} [DecidableEq κ] (m : GoMap κ υ) (k : κ) (v : υ)
    (h : m.get k = some v) : (k, v) ∈ m := by
  induction m with
  | nil => simp [GoMap.get] at h
  | cons e m ih =>
    obtain ⟨k', v'⟩ := e
    by_cases hk : k' = k
    · simp [GoMap.get, hk] at h
      simp [hk, h]
    · simp [GoMap.get, hk] at h
      exact List.mem_cons_of_mem _ (ih h)

theorem GoMap.get_append_of_get {κ υ : Type} [DecidableEq κ] (m t : GoMap κ υ) (k : κ)
    (v : υ) (h : m.get k = some v) : GoMap.get (m ++ t) k = some v := by
  induction m with
  | nil => simp [GoMap.get] at h
  | cons e m ih =>
    obtain ⟨k', v'⟩ := e
    by_cases hk : k' = k
    · simpa [GoMap.get, hk] using h
    · simp [GoMap.get, hk] at h
      simpa [GoMap.get, hk] using ih h

theorem GoMap.get_append_new {κ υ : Type} [DecidableEq κ] (m : GoMap κ υ) (k : κ) (v : υ)
    (h : m.get k = none) : GoMap.get (m ++ [(k, v)]) k = some v := by
  induction m with
  | nil => simp [GoMap.get]
  | cons e m ih =>
    obtain ⟨k', v'⟩ := e
    by_cases hk : k' = k
    · simp [GoMap.get, hk] at h
    · simp [GoMap.get, hk] at h
      simpa [GoMap.get, hk] using ih h

theorem GoMap.set_of_get_none {κ υ : Type} [DecidableEq κ] (m : GoMap κ υ) (k : κ) (v : υ)
    (h : m.get k = none) : m.set k v = m ++ [(k, v)] := by
  induction m with
  | nil => simp [GoMap.set]
  | cons e m ih =>
    obtain ⟨k', v'⟩ := e
    by_cases hk : k' = k
    · simp [GoMap.get, hk] at h
    · simp [GoMap.get, hk] at h
      simp [GoMap.set, hk, ih h]

theorem GoMap.index_append_of_get {κ υ : Type} [DecidableEq κ] [Inhabited υ]
    (m t : GoMap κ υ) (k : κ) (h : (m.get k).isSome) :
    GoMap.index (m ++ t) k = m.index k := by
  obtain ⟨v, hv⟩ := Option.isSome_iff_exists.mp h
  simp [GoMap.index, hv, GoMap.get_append_of_get m t k v hv]

/-! ## The visiting order of `range` is a rearrangement -/

theorem rangeOver_perm {α : Type} (cs : List Nat) (l : List α) :
    (rangeOver cs l).Perm l := by
  induction l generalizing cs with
  | nil => cases cs <;> simp [rangeOver]
  | cons a l ih =>
    cases cs with
    | nil => simp [rangeOver]
    | cons c cs =>
      simp only [rangeOver]
      refine (List.perm_insertIdx a _ ?_).trans ((ih cs).cons a)
      exact Nat.le_of_lt_succ (Nat.mod_lt _ (Nat.succ_pos _))

/-! ## Names in order of first appearance -/

theorem firstSeen_nil (seen : List String) : firstSeen seen [] = seen := rfl

theorem firstSeen_cons (seen : List String) (n : String) (names : List String) :
    firstSeen seen (n :: names) = firstSeen (firstSeen seen [n]) names := rfl

theorem firstSeen_append (seen a b : List String) :
    firstSeen seen (a ++ b) = firstSeen (firstSeen seen a) b := by
  simp [firstSeen, List.foldl_append]

theorem firstSeen_single_of_mem (seen : List String) (n : String) (h : n ∈ seen) :
    firstSeen seen [n] = seen := by
  simp [firstSeen, h]

theorem firstSeen_single_of_not_mem (seen : List String) (n : String) (h : n ∉ seen) :
    firstSeen seen [n] = seen ++ [n] := by
  simp [firstSeen, h]

/-! ## The numbering invariant of the `groups` map -/

theorem zip_range_concat (keys : List String) (n : String) :
    (keys ++ [n]).zip (List.range' 1000 (keys ++ [n]).length)
      = keys.zip (List.range' 1000 keys.length) ++ [(n, 1000 + keys.length)] := by
  rw [List.length_append, List.length_singleton, List.range'_concat,
    List.zip_append (by simp)]
  simp

theorem Numbered.keys_eq {st : ProjState} {keys : List String} (h : Numbered st keys) :
    st.groups.map Prod.fst = keys := by
  rw [h.1]
  exact List.map_fst_zip _ _ (by simp)

theorem Numbered.lookup_none_iff {st : ProjState} {keys : List String} (h : Numbered st keys)
    (n : String) : st.groups.get n = none ↔ n ∉ keys := by
  rw [GoMap.get_eq_none_iff, h.keys_eq]

theorem numbered_initState : Numbered initState ["user"] := by
  constructor <;> rfl

/-! ## The loop over the roles of one user -/

theorem addRole_spec (st : ProjState) (u : config.User) (r : Role) (keys : List String)
    (h : Numbered st keys) :
    Numbered (addRole st u r).1 (firstSeen keys [r.Name]) ∧
    (∃ t, (addRole st u r).1.groups = st.groups ++ t) ∧
    (addRole st u r).1.configUsers = st.configUsers ∧
    ((addRole st u r).1.groups.get r.Name).isSome ∧
    (addRole st u r).2 =
      { u with OtherGroups := u.OtherGroups ++ [(addRole st u r).1.groups.index r.Name] } := by
  cases hget : st.groups.get r.Name with
  | some id =>
    have hmem : r.Name ∈ keys := by
      by_contra hn
      rw [(h.lookup_none_iff r.Name).mpr hn] at hget
      cases hget
    simp only [addRole, hget, firstSeen_single_of_mem keys r.Name hmem]
    refine ⟨h, ⟨[], by simp⟩, trivial, by simp, ?_⟩
    simp [GoMap.index, hget]
  | none =>
    have hmem : r.Name ∉ keys := (h.lookup_none_iff r.Name).mp hget
    simp only [addRole, hget, firstSeen_single_of_not_mem keys r.Name hmem,
      GoMap.set_of_get_none _ _ _ hget]
    refine ⟨⟨?_, ?_⟩, ⟨_, rfl⟩, trivial, ?_, ?_⟩
    · rw [zip_range_concat, ← h.1, h.2]
    · simp [h.2, Nat.add_assoc]
    · simp [GoMap.get_append_new _ _ _ hget]
    · simp [GoMap.index, GoMap.get_append_new _ _ _ hget]

theorem addRoles_spec (rs : List Role) :
    ∀ (st : ProjState) (u : config.User) (keys : List String), Numbered st keys →
    Numbered (addRoles st u rs).1 (firstSeen keys (rs.map Role.Name)) ∧
    (∃ t, (addRoles st u rs).1.groups = st.groups ++ t) ∧
    (addRoles st u rs).1.configUsers = st.configUsers ∧
    (∀ r ∈ rs, ((addRoles st u rs).1.groups.get r.Name).isSome) ∧
    (addRoles st u rs).2 =
      { u with OtherGroups :=
          u.OtherGroups ++ rs.map fun r => (addRoles st u rs).1.groups.index r.Name } := by
  induction rs with
  | nil =>
    intro st u keys h
    simp [addRoles, firstSeen_nil, h]
  | cons r rs ih =>
    intro st u keys h
    obtain ⟨h1, ⟨t1, ht1⟩, hc1, hs1, hu1⟩ := addRole_spec st u r keys h
    obtain ⟨h2, ⟨t2, ht2⟩, hc2, hs2, hu2⟩ :=
      ih (addRole st u r).1 (addRole st u r).2 _ h1
    have hidx : (addRoles st u (r :: rs)).1.groups.index r.Name
        = (addRole st u r).1.groups.index r.Name := by
      show (addRoles (addRole st u r).1 (addRole st u r).2 rs).1.groups.index r.Name = _
      rw [ht2]
      exact GoMap.index_append_of_get _ _ _ hs1
    refine ⟨?_, ⟨t1 ++ t2, ?_⟩, ?_, ?_, ?_⟩
    · rw [List.map_cons, firstSeen_cons]
      exact h2
    · show (addRoles (addRole st u r).1 (addRole st u r).2 rs).1.groups = _
      rw [ht2, ht1, List.append_assoc]
    · show (addRoles (addRole st u r).1 (addRole st u r).2 rs).1.configUsers = _
      rw [hc2, hc1]
    · intro r' hr'
      rcases List.mem_cons.mp hr' with rfl | hr'
      · show ((addRoles (addRole st u r').1 (addRole st u r').2 rs).1.groups.get r'.Name).isSome
        obtain ⟨v, hv⟩ := Option.isSome_iff_exists.mp hs1
        rw [ht2, GoMap.get_append_of_get _ _ _ v hv]
        rfl
      · exact hs2 r' hr'
    · rw [List.map_cons, hidx]
      show (addRoles (addRole st u r).1 (addRole st u r).2 rs).2 = _
      rw [hu2, congrArg config.User.Name hu1, congrArg config.User.UIDNumber hu1,
        congrArg config.User.PrimaryGroup hu1, congrArg config.User.OtherGroups hu1,
        congrArg config.User.Mail hu1, congrArg config.User.PassBcrypt hu1]
      simp only [List.append_assoc, List.singleton_append]
      rfl

/-! ## The loop over the source users -/

theorem rejected_iff (user : caddyAuthUser) :
    rejected user ↔ ∃ pw tl, user.Passwords = pw :: tl ∧ pw.Algorithm ≠ "bcrypt" := by
  constructor
  · rintro ⟨pw, hpw, halg⟩
    cases hp : user.Passwords with
    | nil => simp [hp] at hpw
    | cons a tl =>
      rw [hp] at hpw
      simp at hpw
      exact ⟨a, tl, rfl, hpw ▸ halg⟩
  · rintro ⟨pw, tl, hp, halg⟩
    exact ⟨pw, by simp [hp], halg⟩

theorem keptFrom_cons_skip (i : Nat) (user : caddyAuthUser) (rest : List caddyAuthUser)
    (h : user.Passwords = []) : keptFrom i (user :: rest) = keptFrom (i + 1) rest := by
  simp [keptFrom, hasPassword, h]

theorem keptFrom_cons_keep (i : Nat) (user : caddyAuthUser) (rest : List caddyAuthUser)
    (pw : Password) (tl : List Password) (h : user.Passwords = pw :: tl) :
    keptFrom i (user :: rest) = (i, user) :: keptFrom (i + 1) rest := by
  simp [keptFrom, hasPassword, h]

theorem keptRoleNames_cons_skip (user : caddyAuthUser) (rest : List caddyAuthUser)
    (h : user.Passwords = []) : keptRoleNames (user :: rest) = keptRoleNames rest := by
  simp [keptRoleNames, hasPassword, h]

theorem keptRoleNames_cons_keep (user : caddyAuthUser) (rest : List caddyAuthUser)
    (pw : Password) (tl : List Password) (h : user.Passwords = pw :: tl) :
    keptRoleNames (user :: rest) = rolesOf user ++ keptRoleNames rest := by
  simp [keptRoleNames, hasPassword, h]

theorem projectUsers_error (users : List caddyAuthUser) :
    ∀ (i : Nat) (st : ProjState), (∃ u ∈ users, rejected u) →
      ∃ e, projectUsers i users st = .error e := by
  induction users with
  | nil => intro i st h; simp at h
  | cons user rest ih =>
    intro i st h
    cases hp : user.Passwords with
    | nil =>
      have hrest : ∃ u ∈ rest, rejected u := by
        obtain ⟨u, hu, hr⟩ := h
        rcases List.mem_cons.mp hu with rfl | hu
        · obtain ⟨pw, tl, hpw, -⟩ := (rejected_iff u).mp hr
          rw [hp] at hpw
          cases hpw
        · exact ⟨u, hu, hr⟩
      simp only [projectUsers, hp]
      exact ih (i + 1) st hrest
    | cons pw tl =>
      by_cases halg : pw.Algorithm = "bcrypt"
      · have hrest : ∃ u ∈ rest, rejected u := by
          obtain ⟨u, hu, hr⟩ := h
          rcases List.mem_cons.mp hu with rfl | hu
          · obtain ⟨pw', tl', hpw, hne⟩ := (rejected_iff u).mp hr
            rw [hp] at hpw
            cases hpw
            exact absurd halg hne
          · exact ⟨u, hu, hr⟩
        simp only [projectUsers, hp, halg, ne_eq, not_true_eq_false, if_false]
        exact ih (i + 1) _ hrest
      · simp only [projectUsers, hp, halg, ne_eq, not_false_eq_true, if_true]
        exact ⟨_, rfl⟩

theorem projectUsers_ok (users : List caddyAuthUser) :
    ∀ (i : Nat) (st : ProjState) (keys : List String), Numbered st keys →
      (∀ u ∈ users, ¬ rejected u) →
      ∃ st', projectUsers i users st = .ok st' ∧
        Numbered st' (firstSeen keys (keptRoleNames users)) ∧
        (∃ t, st'.groups = st.groups ++ t) ∧
        (∀ u ∈ users, hasPassword u = true →
          ∀ r ∈ u.Roles, (st'.groups.get r.Name).isSome) ∧
        st'.configUsers = st.configUsers ++ (keptFrom i users).map (projected st'.groups) := by
  induction users with
  | nil =>
    intro i st keys h _
    exact ⟨st, rfl, by simpa [keptRoleNames, firstSeen_nil] using h, ⟨[], by simp⟩,
      by simp, by simp [keptFrom]⟩
  | cons user rest ih =>
    intro i st keys h hrej
    have hrest : ∀ u ∈ rest, ¬ rejected u := fun u hu => hrej u (List.mem_cons_of_mem _ hu)
    cases hp : user.Passwords with
    | nil =>
      obtain ⟨st', hrun, hnum, hpre, hsome, husers⟩ := ih (i + 1) st keys h hrest
      refine ⟨st', ?_, ?_, hpre, ?_, ?_⟩
      · simp only [projectUsers, hp]
        exact hrun
      · rw [keptRoleNames_cons_skip user rest hp]
        exact hnum
      · intro u hu hk
        rcases List.mem_cons.mp hu with rfl | hu
        · simp [hasPassword, hp] at hk
        · exact hsome u hu hk
      · rw [keptFrom_cons_skip i user rest hp]
        exact husers
    | cons pw tl =>
      have halg : pw.Algorithm = "bcrypt" := by
        by_contra hne
        exact hrej user (List.mem_cons_self _ _) ((rejected_iff user).mpr ⟨pw, tl, hp, hne⟩)
      obtain ⟨h1, ⟨t1, ht1⟩, hc1, hs1, hu1⟩ := addRoles_spec user.Roles st
        { newUser i user with PassBcrypt := hex.EncodeToString (bytesOf pw.Hash) } keys h
      generalize hq : addRoles st
        { newUser i user with PassBcrypt := hex.EncodeToString (bytesOf pw.Hash) }
        user.Roles = q at h1 ht1 hc1 hs1 hu1
      have h1' : Numbered { q.1 with configUsers := q.1.configUsers ++ [q.2] }
          (firstSeen keys (user.Roles.map Role.Name)) := h1
      obtain ⟨st', hrun, hnum, ⟨t2, ht2⟩, hsome, husers⟩ := ih (i + 1) _ _ h1' hrest
      have ht2' : st'.groups = q.1.groups ++ t2 := ht2
      have hidx : ∀ r ∈ user.Roles, st'.groups.index r.Name = q.1.groups.index r.Name := by
        intro r hr
        rw [ht2']
        exact GoMap.index_append_of_get _ _ _ (hs1 r hr)
      refine ⟨st', ?_, ?_, ⟨t1 ++ t2, ?_⟩, ?_, ?_⟩
      · simp only [projectUsers, hp, halg, ne_eq, not_true_eq_false, if_false, hq]
        exact hrun
      · rw [keptRoleNames_cons_keep user rest pw tl hp, firstSeen_append]
        exact hnum
      · rw [ht2', ht1, List.append_assoc]
      · intro u hu hk r hr
        rcases List.mem_cons.mp hu with rfl | hu
        · obtain ⟨v, hv⟩ := Option.isSome_iff_exists.mp (hs1 r hr)
          rw [ht2', GoMap.get_append_of_get _ _ _ v hv]
          rfl
        · exact hsome u hu hk r hr
      · rw [keptFrom_cons_keep i user rest pw tl hp, husers]
        have hproj : q.2 = projected st'.groups (i, user) := by
          rw [hu1]
          have hmap : (user.Roles.map fun r => q.1.groups.index r.Name)
              = user.Roles.map fun r => st'.groups.index r.Name :=
            List.map_congr_left fun r hr => (hidx r hr).symm
          cases he : user.EmailAddresses <;>
            simp [projected, newUser, he, hp, hmap]
        show (q.1.configUsers ++ [q.2]) ++ _ = _
        rw [hc1, hproj]
        simp

/-! ## Further facts on names, numbering and lookup -/

theorem firstSeen_nodup (names : List String) :
    ∀ seen : List String, seen.Nodup → (firstSeen seen names).Nodup := by
  induction names with
  | nil => intro seen h; exact h
  | cons n names ih =>
    intro seen h
    rw [firstSeen_cons]
    apply ih
    by_cases hn : n ∈ seen
    · rw [firstSeen_single_of_mem seen n hn]
      exact h
    · rw [firstSeen_single_of_not_mem seen n hn]
      exact List.nodup_append.mpr ⟨h, List.nodup_singleton n, by
        intro a ha hb
        rw [List.mem_singleton] at hb
        exact hn (hb ▸ ha)⟩

theorem firstSeen_cons_seen (a : String) (names : List String) :
    ∀ seen : List String,
      firstSeen (a :: seen) names = a :: firstSeen seen (names.filter fun n => n ≠ a) := by
  induction names with
  | nil => intro seen; rfl
  | cons n names ih =>
    intro seen
    rw [firstSeen_cons]
    by_cases hna : n = a
    · subst hna
      rw [firstSeen_single_of_mem _ n (List.mem_cons_self _ _), ih]
      simp
    · have hfilter : ((n :: names).filter fun x => x ≠ a)
          = n :: names.filter fun x => x ≠ a := by
        simp [hna]
      rw [hfilter, firstSeen_cons seen]
      by_cases hn : n ∈ seen
      · rw [firstSeen_single_of_mem _ n (List.mem_cons_of_mem _ hn),
          firstSeen_single_of_mem _ n hn, ih]
      · have hn' : n ∉ a :: seen := by
          simp [hna, hn]
        rw [firstSeen_single_of_not_mem _ n hn', firstSeen_single_of_not_mem _ n hn,
          List.cons_append, ih]

theorem GoMap.get_of_mem_nodup {κ υ : Type} [DecidableEq κ] (m : GoMap κ υ) (k : κ) (v : υ)
    (hnd : (m.map Prod.fst).Nodup) (h : (k, v) ∈ m) : m.get k = some v := by
  induction m with
  | nil => cases h
  | cons e m ih =>
    obtain ⟨k', v'⟩ := e
    rw [List.map_cons, List.nodup_cons] at hnd
    rcases List.mem_cons.mp h with heq | hmem
    · cases heq
      simp [GoMap.get]
    · have hne : k' ≠ k := by
        rintro rfl
        exact hnd.1 (List.mem_map.mpr ⟨(k', v), hmem, rfl⟩)
      simpa [GoMap.get, hne] using ih hnd.2 hmem

theorem mem_zip_range_iff (keys : List String) (n : String) (v : Nat) :
    (n, v) ∈ keys.zip (List.range' 1000 keys.length) ↔
      ∃ k, keys[k]? = some n ∧ v = 1000 + k := by
  rw [List.mem_iff_getElem?]
  constructor
  · rintro ⟨k, hk⟩
    rw [List.getElem?_zip_eq_some] at hk
    obtain ⟨h1, h2⟩ := hk
    rw [List.getElem?_range'] at h2
    · simp at h2
      exact ⟨k, h1, h2.symm⟩
    · by_contra hlt
      rw [List.getElem?_eq_none (by omega)] at h1
      cases h1
  · rintro ⟨k, hk, rfl⟩
    refine ⟨k, List.getElem?_zip_eq_some.mpr ⟨hk, ?_⟩⟩
    have hlt : k < keys.length := by
      by_contra hlt
      rw [List.getElem?_eq_none (by omega)] at hk
      cases hk
    rw [List.getElem?_range' _ _ hlt]
    simp

theorem mem_rangeOver_groups (order : List Nat) (m : GoMap String Nat) (g : config.Group) :
    g ∈ (rangeOver order m).map toGroup ↔ (g.Name, g.GIDNumber) ∈ m := by
  rw [List.mem_map]
  constructor
  · rintro ⟨p, hp, rfl⟩
    exact (rangeOver_perm order m).mem_iff.mp hp
  · intro h
    exact ⟨(g.Name, g.GIDNumber), (rangeOver_perm order m).mem_iff.mpr h, rfl⟩

theorem keptFrom_map_snd (users : List caddyAuthUser) (i : Nat) :
    (keptFrom i users).map Prod.snd = users.filter hasPassword := by
  induction users generalizing i with
  | nil => rfl
  | cons user rest ih =>
    cases hp : user.Passwords with
    | nil =>
      rw [keptFrom_cons_skip i user rest hp, ih]
      simp [hasPassword, hp]
    | cons pw tl =>
      rw [keptFrom_cons_keep i user rest pw tl hp, List.map_cons, ih]
      simp [hasPassword, hp]

/-! ## What a call of `updateConfig` returns -/

theorem updateConfig_of_error (env : Env) (cfg : config.Config) (bytes : List Nat)
    (c : caddyAuthConfig) (e : String)
    (hread : env.ReadFile cfg.ConfigFile = .ok bytes) (hparse : env.Unmarshal bytes = .ok c)
    (hrun : projectUsers 0 c.Users initState = .error e) :
    updateConfig env cfg = { err := some e, config := cfg, stdout := [] } := by
  simp only [updateConfig, hread, hparse, hrun]

theorem updateConfig_of_ok (env : Env) (cfg : config.Config) (bytes : List Nat)
    (c : caddyAuthConfig) (st : ProjState)
    (hread : env.ReadFile cfg.ConfigFile = .ok bytes) (hparse : env.Unmarshal bytes = .ok c)
    (hrun : projectUsers 0 c.Users initState = .ok st) :
    (updateConfig env cfg).err = none ∧
    (updateConfig env cfg).config.Users = st.configUsers ∧
    (updateConfig env cfg).config.Groups = (rangeOver env.rangeOrder st.groups).map toGroup := by
  simp only [updateConfig, hread, hparse, hrun]
  exact ⟨trivial, trivial, rfl⟩

theorem updateConfig_err_or_same (env : Env) (cfg : config.Config) :
    (updateConfig env cfg).err = none ∨ (updateConfig env cfg).config = cfg := by
  cases hread : env.ReadFile cfg.ConfigFile with
  | error e => exact Or.inr (by simp only [updateConfig, hread])
  | ok bytes =>
    cases hparse : env.Unmarshal bytes with
    | error e => exact Or.inr (by simp only [updateConfig, hread, hparse])
    | ok c =>
      cases hrun : projectUsers 0 c.Users initState with
      | error e => exact Or.inr (by simp only [updateConfig, hread, hparse, hrun])
      | ok st => exact Or.inl (by simp only [updateConfig, hread, hparse, hrun])

/-- The shape of every published snapshot: the document was read and decoded,
no user was rejected, and users and groups are the projection of the kept
users under the final numbering of the group names. -/
theorem published (env : Env) (cfg : config.Config)
    (h : (updateConfig env cfg).err = none) :
    ∃ bytes c st, env.ReadFile cfg.ConfigFile = .ok bytes ∧ env.Unmarshal bytes = .ok c ∧
      (∀ u ∈ c.Users, ¬ rejected u) ∧
      projectUsers 0 c.Users initState = .ok st ∧
      Numbered st (firstSeen ["user"] (keptRoleNames c.Users)) ∧
      (∀ u ∈ c.Users, hasPassword u = true →
        ∀ r ∈ u.Roles, (st.groups.get r.Name).isSome) ∧
      (updateConfig env cfg).config.Users = (keptFrom 0 c.Users).map (projected st.groups) ∧
      (updateConfig env cfg).config.Groups
        = (rangeOver env.rangeOrder st.groups).map toGroup := by
  cases hread : env.ReadFile cfg.ConfigFile with
  | error e => simp [updateConfig, hread] at h
  | ok bytes =>
    cases hparse : env.Unmarshal bytes with
    | error e => simp [updateConfig, hread, hparse] at h
    | ok c =>
      by_cases hrej : ∃ u ∈ c.Users, rejected u
      · obtain ⟨e, he⟩ := projectUsers_error c.Users 0 initState hrej
        rw [updateConfig_of_error env cfg bytes c e hread hparse he] at h
        cases h
      · have hrej' : ∀ u ∈ c.Users, ¬ rejected u := fun u hu hr => hrej ⟨u, hu, hr⟩
        obtain ⟨st, hrun, hnum, -, hsome, husers⟩ :=
          projectUsers_ok c.Users 0 initState ["user"] numbered_initState hrej'
        obtain ⟨-, hU, hG⟩ := updateConfig_of_ok env cfg bytes c st hread hparse hrun
        refine ⟨bytes, c, st, rfl, hparse, hrej', hrun, hnum, hsome, ?_, hG⟩
        rw [hU, husers]
        rfl

theorem Numbered.get_of_getElem? {st : ProjState} {keys : List String} (h : Numbered st keys)
    (hnd : keys.Nodup) (k : Nat) (n : String) (hk : keys[k]? = some n) :
    st.groups.get n = some (1000 + k) := by
  apply GoMap.get_of_mem_nodup
  · rw [h.keys_eq]
    exact hnd
  · rw [h.1]
    exact (mem_zip_range_iff keys n (1000 + k)).mpr ⟨k, hk, rfl⟩

theorem keptFrom_zero (users : List caddyAuthUser) :
    keptFrom 0 users = users.enum.filter fun p => hasPassword p.2 := rfl

theorem mem_keptFrom (users : List caddyAuthUser) (i : Nat) (p : Nat × caddyAuthUser)
    (h : p ∈ keptFrom i users) : p.2 ∈ users ∧ hasPassword p.2 = true := by
  have hmem : p.2 ∈ (keptFrom i users).map Prod.snd := List.mem_map_of_mem _ h
  rw [keptFrom_map_snd] at hmem
  exact List.mem_filter.mp hmem

theorem finalKeys_eq (users : List caddyAuthUser) :
    firstSeen ["user"] (keptRoleNames users)
      = "user" :: distinctInOrder ((keptRoleNames users).filter fun n => n ≠ "user") :=
  firstSeen_cons_seen "user" (keptRoleNames users) []

theorem finalKeys_nodup (users : List caddyAuthUser) :
    (firstSeen ["user"] (keptRoleNames users)).Nodup :=
  firstSeen_nodup _ _ (List.nodup_singleton _)

theorem published_of_parsed (env : Env) (cfg : config.Config) (bytes : List Nat)
    (c : caddyAuthConfig)
    (hread : env.ReadFile cfg.ConfigFile = .ok bytes) (hparse : env.Unmarshal bytes = .ok c)
    (h : (updateConfig env cfg).err = none) :
    ∃ st, (∀ u ∈ c.Users, ¬ rejected u) ∧
      projectUsers 0 c.Users initState = .ok st ∧
      Numbered st (firstSeen ["user"] (keptRoleNames c.Users)) ∧
      (∀ u ∈ c.Users, hasPassword u = true →
        ∀ r ∈ u.Roles, (st.groups.get r.Name).isSome) ∧
      (updateConfig env cfg).config.Users = (keptFrom 0 c.Users).map (projected st.groups) ∧
      (updateConfig env cfg).config.Groups
        = (rangeOver env.rangeOrder st.groups).map toGroup := by
  obtain ⟨bytes', c', st, hread', hparse', h1, h2, h3, h4, h5, h6⟩ := published env cfg h
  rw [hread] at hread'
  cases hread'
  rw [hparse] at hparse'
  cases hparse'
  exact ⟨st, h1, h2, h3, h4, h5, h6⟩

/-! ## Failure leaves the served configuration alone -/

/-- C1: whenever `updateConfig` returns an error (unreadable file, JSON decode
failure, or a rejected password algorithm), the served users list and the
served groups list are exactly what they were before the call. -/
theorem updateConfig_error_keeps_served (env : Env) (cfg : config.Config)
    (h : (updateConfig env cfg).err ≠ none) :
    (updateConfig env cfg).config.Users = cfg.Users ∧
    (updateConfig env cfg).config.Groups = cfg.Groups := by
  rcases updateConfig_err_or_same env cfg with hnone | hsame
  · exact absurd hnone h
  · rw [hsame]
    exact ⟨rfl, rfl⟩

/-- Witness for C1: a reload of a document with a `plain` password fails and
the served user and groups stay. -/
theorem updateConfig_error_keeps_served_witness :
    (updateConfig (envOf docPlain []) servedBefore).err ≠ none ∧
    (updateConfig (envOf docPlain []) servedBefore).config.Users = servedBefore.Users ∧
    (updateConfig (envOf docPlain []) servedBefore).config.Groups = servedBefore.Groups :=
  ⟨by decide, updateConfig_error_keeps_served (envOf docPlain []) servedBefore (by decide)⟩

/-- C2: for a document that was read and decoded, `updateConfig` fails if and
only if some user with a non-empty passwords list has a first password entry
whose algorithm is not exactly `bcrypt`; in every other case it returns no
error and publishes the users and groups computed by the projection loop. -/
theorem updateConfig_fails_iff_rejected (env : Env) (cfg : config.Config) (bytes : List Nat)
    (c : caddyAuthConfig)
    (hread : env.ReadFile cfg.ConfigFile = .ok bytes) (hparse : env.Unmarshal bytes = .ok c) :
    ((updateConfig env cfg).err ≠ none ↔
      ∃ u ∈ c.Users, ∃ pw, u.Passwords.head? = some pw ∧ pw.Algorithm ≠ "bcrypt") ∧
    ((¬ ∃ u ∈ c.Users, ∃ pw, u.Passwords.head? = some pw ∧ pw.Algorithm ≠ "bcrypt") →
      (updateConfig env cfg).err = none ∧
      ∃ st, projectUsers 0 c.Users initState = .ok st ∧
        (updateConfig env cfg).config.Users = st.configUsers ∧
        (updateConfig env cfg).config.Groups
          = (rangeOver env.rangeOrder st.groups).map toGroup) := by
  have hsucc : (¬ ∃ u ∈ c.Users, rejected u) →
      (updateConfig env cfg).err = none ∧
      ∃ st, projectUsers 0 c.Users initState = .ok st ∧
        (updateConfig env cfg).config.Users = st.configUsers ∧
        (updateConfig env cfg).config.Groups
          = (rangeOver env.rangeOrder st.groups).map toGroup := by
    intro hrej
    obtain ⟨st, hrun, -⟩ := projectUsers_ok c.Users 0 initState ["user"] numbered_initState
      (fun u hu hr => hrej ⟨u, hu, hr⟩)
    obtain ⟨h0, hU, hG⟩ := updateConfig_of_ok env cfg bytes c st hread hparse hrun
    exact ⟨h0, st, hrun, hU, hG⟩
  refine ⟨⟨?_, ?_⟩, hsucc⟩
  · intro herr
    by_contra hrej
    exact herr (hsucc hrej).1
  · intro hrej
    obtain ⟨e, he⟩ := projectUsers_error c.Users 0 initState hrej
    rw [updateConfig_of_error env cfg bytes c e hread hparse he]
    simp

/-- Witness for C2: the document with a `plain` first password. -/
theorem updateConfig_fails_iff_rejected_witness :
    (envOf docPlain []).ReadFile servedBefore.ConfigFile = .ok [] ∧
    (envOf docPlain []).Unmarshal [] = .ok docPlain ∧
    ((updateConfig (envOf docPlain []) servedBefore).err ≠ none ↔
      ∃ u ∈ docPlain.Users, ∃ pw,
        u.Passwords.head? = some pw ∧ pw.Algorithm ≠ "bcrypt") ∧
    ((¬ ∃ u ∈ docPlain.Users, ∃ pw,
        u.Passwords.head? = some pw ∧ pw.Algorithm ≠ "bcrypt") →
      (updateConfig (envOf docPlain []) servedBefore).err = none ∧
      ∃ st, projectUsers 0 docPlain.Users initState = .ok st ∧
        (updateConfig (envOf docPlain []) servedBefore).config.Users = st.configUsers ∧
        (updateConfig (envOf docPlain []) servedBefore).config.Groups
          = (rangeOver (envOf docPlain []).rangeOrder st.groups).map toGroup) :=
  ⟨rfl, rfl,
    updateConfig_fails_iff_rejected (envOf docPlain []) servedBefore [] docPlain rfl rfl⟩

/-- Counterexample to C3: a user whose second password entry is `plain` (the
first being `bcrypt`) does not make `updateConfig` fail; the new snapshot is
published and replaces the served users. -/
theorem later_password_not_checked :
    (∃ u ∈ docSecondPlain.Users, ∃ pw ∈ u.Passwords, pw.Algorithm ≠ "bcrypt") ∧
    (updateConfig (envOf docSecondPlain []) servedBefore).err = none ∧
    (updateConfig (envOf docSecondPlain []) servedBefore).config.Users ≠ servedBefore.Users :=
  ⟨⟨sourceUser "a" [⟨"bcrypt", "h"⟩, ⟨"plain", "p"⟩] [], by simp [docSecondPlain],
      ⟨"plain", "p"⟩, by simp [sourceUser], by decide⟩,
    by decide, by decide⟩

/-- C3 (amended): when some user has a first password entry whose algorithm
is not `bcrypt`, `updateConfig` fails and the previously served users and
groups remain in place. -/
theorem first_password_rejected_keeps_served (env : Env) (cfg : config.Config)
    (bytes : List Nat) (c : caddyAuthConfig)
    (hread : env.ReadFile cfg.ConfigFile = .ok bytes) (hparse : env.Unmarshal bytes = .ok c)
    (hbad : ∃ u ∈ c.Users, ∃ pw, u.Passwords.head? = some pw ∧ pw.Algorithm ≠ "bcrypt") :
    (updateConfig env cfg).err ≠ none ∧
    (updateConfig env cfg).config.Users = cfg.Users ∧
    (updateConfig env cfg).config.Groups = cfg.Groups := by
  obtain ⟨e, he⟩ := projectUsers_error c.Users 0 initState hbad
  rw [updateConfig_of_error env cfg bytes c e hread hparse he]
  simp

/-- Witness for C3 (amended): the document with a `plain` first password. -/
theorem first_password_rejected_keeps_served_witness :
    (∃ u ∈ docPlain.Users, ∃ pw,
        u.Passwords.head? = some pw ∧ pw.Algorithm ≠ "bcrypt") ∧
    (updateConfig (envOf docPlain [2, 1]) servedBefore).err ≠ none ∧
    (updateConfig (envOf docPlain [2, 1]) servedBefore).config.Users = servedBefore.Users ∧
    (updateConfig (envOf docPlain [2, 1]) servedBefore).config.Groups = servedBefore.Groups :=
  have hbad : ∃ u ∈ docPlain.Users, ∃ pw,
      u.Passwords.head? = some pw ∧ pw.Algorithm ≠ "bcrypt" :=
    ⟨sourceUser "a" [⟨"plain", "p"⟩] [], by simp [docPlain], ⟨"plain", "p"⟩, rfl,
      by decide⟩
  ⟨hbad, first_password_rejected_keeps_served (envOf docPlain [2, 1]) servedBefore []
    docPlain rfl rfl hbad⟩

/-! ## Identifier allocation -/

/-- C4: on success every user of the snapshot has uid `1000 + i`, where `i` is
the 0-based index of its source entry in the source users array, the skipped
users (no passwords) being counted. -/
theorem uid_is_source_index (env : Env) (cfg : config.Config) (bytes : List Nat)
    (c : caddyAuthConfig)
    (hread : env.ReadFile cfg.ConfigFile = .ok bytes) (hparse : env.Unmarshal bytes = .ok c)
    (hok : (updateConfig env cfg).err = none) :
    (updateConfig env cfg).config.Users.map (fun u => (u.Name, u.UIDNumber))
      = (c.Users.enum.filter fun p => hasPassword p.2).map
          (fun p => (p.2.Username, 1000 + p.1)) ∧
    ∀ p ∈ c.Users.enum.filter (fun p => hasPassword p.2), c.Users[p.1]? = some p.2 := by
  obtain ⟨st, -, -, -, -, hU, -⟩ := published_of_parsed env cfg bytes c hread hparse hok
  constructor
  · rw [hU, keptFrom_zero, List.map_map]
    rfl
  · intro p hp
    exact List.mk_mem_enum_iff_getElem?.mp (List.mem_filter.mp hp).1

/-- Witness for C4: user `a` without passwords is skipped and user `b` keeps
its positional uid 1001. -/
theorem uid_is_source_index_witness :
    (updateConfig (envOf docSkipped []) servedBefore).err = none ∧
    (updateConfig (envOf docSkipped []) servedBefore).config.Users.map
      (fun u => (u.Name, u.UIDNumber)) = [("b", 1001)] :=
  ⟨by decide,
    (uid_is_source_index (envOf docSkipped []) servedBefore [] docSkipped rfl rfl
      (by decide)).1.trans (by decide)⟩

/-- Counterexample to C5: user `a` has no passwords and role x, user `b` has
roles user, y. The distinct role names of the document in order of first
appearance are x, user, y, yet the published groups are user with gid 1000
and y with gid 1001: neither x nor user nor y has the gid `1000 + k` of its
rank `k` in the document. -/
theorem role_gid_not_by_document_rank :
    (updateConfig (envOf docSkippedRoles []) servedBefore).err = none ∧
    distinctInOrder (allRoleNames docSkippedRoles.Users) = ["x", "user", "y"] ∧
    (updateConfig (envOf docSkippedRoles []) servedBefore).config.Groups
      = [{ Name := "user", GIDNumber := 1000 }, { Name := "y", GIDNumber := 1001 }] ∧
    ¬ (∀ (k : Nat) (name : String),
        (distinctInOrder (allRoleNames docSkippedRoles.Users))[k]? = some name →
        ({ Name := name, GIDNumber := 1001 + k } : config.Group) ∈
          (updateConfig (envOf docSkippedRoles []) servedBefore).config.Groups) := by
  refine ⟨by decide, by decide, by decide, ?_⟩
  intro h
  exact absurd (h 0 "x" (by decide)) (by decide)

/-- C5 (amended): on success the role names other than `user` that are listed
by users with a non-empty passwords list receive gids in order of first
appearance (kept users in source order, roles in order within each user): the
name of rank `k` (from 0) has the group with gid `1001 + k`, and every
occurrence of that name among the roles of a kept user puts that same gid at
the same position of the user's other groups. -/
theorem role_gid_by_first_appearance (env : Env) (cfg : config.Config) (bytes : List Nat)
    (c : caddyAuthConfig)
    (hread : env.ReadFile cfg.ConfigFile = .ok bytes) (hparse : env.Unmarshal bytes = .ok c)
    (hok : (updateConfig env cfg).err = none) :
    (∀ (k : Nat) (name : String),
      (distinctInOrder ((keptRoleNames c.Users).filter fun n => n ≠ "user"))[k]? = some name →
      ({ Name := name, GIDNumber := 1001 + k } : config.Group) ∈
        (updateConfig env cfg).config.Groups) ∧
    (∀ (j : Nat) (u : config.User), (updateConfig env cfg).config.Users[j]? = some u →
      ∃ su, (c.Users.filter hasPassword)[j]? = some su ∧
        ∀ (m : Nat) (name : String) (k : Nat), (rolesOf su)[m]? = some name →
          (distinctInOrder ((keptRoleNames c.Users).filter fun n => n ≠ "user"))[k]?
            = some name →
          u.OtherGroups[m]? = some (1001 + k)) := by
  obtain ⟨st, -, -, hnum, -, hU, hG⟩ := published_of_parsed env cfg bytes c hread hparse hok
  have hkey : ∀ k name,
      (distinctInOrder ((keptRoleNames c.Users).filter fun n => n ≠ "user"))[k]? = some name →
      (firstSeen ["user"] (keptRoleNames c.Users))[k + 1]? = some name := by
    intro k name hk
    rw [finalKeys_eq, List.getElem?_cons_succ]
    exact hk
  constructor
  · intro k name hk
    rw [hG, mem_rangeOver_groups, hnum.1]
    exact (mem_zip_range_iff _ name (1001 + k)).mpr ⟨k + 1, hkey k name hk, by omega⟩
  · intro j u hj
    rw [hU, List.getElem?_map] at hj
    cases hp : (keptFrom 0 c.Users)[j]? with
    | none => simp [hp] at hj
    | some p =>
      rw [hp] at hj
      simp only [Option.map_some', Option.some.injEq] at hj
      refine ⟨p.2, ?_, ?_⟩
      · rw [← keptFrom_map_snd c.Users 0, List.getElem?_map, hp]
        rfl
      · intro m name k hm hk
        have hget := hnum.get_of_getElem? (finalKeys_nodup c.Users) (k + 1) name
          (hkey k name hk)
        rw [← hj]
        simp only [projected, List.getElem?_map]
        simp only [rolesOf, List.getElem?_map] at hm
        cases hr : p.2.Roles[m]? with
        | none => simp [hr] at hm
        | some r =>
          rw [hr] at hm
          simp only [Option.map_some', Option.some.injEq] at hm
          simp only [Option.map_some', Option.some.injEq, GoMap.index, hm, hget,
            Option.getD_some]
          omega

/-- Witness for C5 (amended): with roles admin, ops on `a` and ops, admin on
`b`, the group admin has gid 1001 and the group ops has gid 1002. -/
theorem role_gid_by_first_appearance_witness :
    (updateConfig (envOf docRoles [1, 0, 2]) servedBefore).err = none ∧
    ({ Name := "admin", GIDNumber := 1001 } : config.Group) ∈
      (updateConfig (envOf docRoles [1, 0, 2]) servedBefore).config.Groups ∧
    ({ Name := "ops", GIDNumber := 1002 } : config.Group) ∈
      (updateConfig (envOf docRoles [1, 0, 2]) servedBefore).config.Groups :=
  have h := (role_gid_by_first_appearance (envOf docRoles [1, 0, 2]) servedBefore []
    docRoles rfl rfl (by decide)).1
  ⟨by decide, h 0 "admin" (by decide), h 1 "ops" (by decide)⟩

/-! ## Invariants of the published snapshot -/

/-- C6: in every snapshot published by a successful `updateConfig`, the primary
gid of every user and every element of every user's other gids is the gid of
some group of the snapshot's group list. -/
theorem gids_refer_to_groups (env : Env) (cfg : config.Config)
    (hok : (updateConfig env cfg).err = none) :
    ∀ u ∈ (updateConfig env cfg).config.Users,
      (∃ g ∈ (updateConfig env cfg).config.Groups, g.GIDNumber = u.PrimaryGroup) ∧
      ∀ x ∈ u.OtherGroups, ∃ g ∈ (updateConfig env cfg).config.Groups, g.GIDNumber = x := by
  obtain ⟨bytes, c, st, -, -, -, -, hnum, hsome, hU, hG⟩ := published env cfg hok
  intro u hu
  rw [hU] at hu
  obtain ⟨p, hp, rfl⟩ := List.mem_map.mp hu
  obtain ⟨hmem, hkept⟩ := mem_keptFrom c.Users 0 p hp
  constructor
  · refine ⟨{ Name := "user", GIDNumber := 1000 }, ?_, rfl⟩
    rw [hG, mem_rangeOver_groups, hnum.1]
    exact (mem_zip_range_iff _ "user" 1000).mpr ⟨0, by rw [finalKeys_eq]; simp, rfl⟩
  · intro x hx
    obtain ⟨r, hr, rfl⟩ := List.mem_map.mp hx
    obtain ⟨v, hv⟩ := Option.isSome_iff_exists.mp (hsome p.2 hmem hkept r hr)
    refine ⟨{ Name := r.Name, GIDNumber := v }, ?_, by simp [GoMap.index, hv]⟩
    rw [hG, mem_rangeOver_groups]
    exact GoMap.mem_of_get _ _ _ hv

/-- Witness for C6: the document with roles admin and ops. -/
theorem gids_refer_to_groups_witness :
    (updateConfig (envOf docRoles [3, 1, 4]) servedBefore).err = none ∧
    ∀ u ∈ (updateConfig (envOf docRoles [3, 1, 4]) servedBefore).config.Users,
      (∃ g ∈ (updateConfig (envOf docRoles [3, 1, 4]) servedBefore).config.Groups,
        g.GIDNumber = u.PrimaryGroup) ∧
      ∀ x ∈ u.OtherGroups,
        ∃ g ∈ (updateConfig (envOf docRoles [3, 1, 4]) servedBefore).config.Groups,
          g.GIDNumber = x :=
  ⟨by decide, gids_refer_to_groups (envOf docRoles [3, 1, 4]) servedBefore (by decide)⟩

/-- C7: in every snapshot published by a successful `updateConfig`, no two
entries of the group list have the same name and no two have the same gid. -/
theorem group_names_and_gids_unique (env : Env) (cfg : config.Config)
    (hok : (updateConfig env cfg).err = none) :
    ((updateConfig env cfg).config.Groups.map config.Group.Name).Nodup ∧
    ((updateConfig env cfg).config.Groups.map config.Group.GIDNumber).Nodup := by
  obtain ⟨bytes, c, st, -, -, -, -, hnum, -, -, hG⟩ := published env cfg hok
  rw [hG]
  constructor
  · have hperm : (((rangeOver env.rangeOrder st.groups).map toGroup).map
        config.Group.Name).Perm (st.groups.map Prod.fst) := by
      rw [List.map_map]
      exact (rangeOver_perm env.rangeOrder st.groups).map _
    rw [hperm.nodup_iff, hnum.keys_eq]
    exact finalKeys_nodup c.Users
  · have hperm : (((rangeOver env.rangeOrder st.groups).map toGroup).map
        config.Group.GIDNumber).Perm (st.groups.map Prod.snd) := by
      rw [List.map_map]
      exact (rangeOver_perm env.rangeOrder st.groups).map _
    rw [hperm.nodup_iff, hnum.1, List.map_snd_zip _ _ (by simp)]
    exact List.nodup_range' 1000 _

/-- Witness for C7: the document with roles admin and ops. -/
theorem group_names_and_gids_unique_witness :
    (updateConfig (envOf docRoles [2, 7]) servedBefore).err = none ∧
    ((updateConfig (envOf docRoles [2, 7]) servedBefore).config.Groups.map
      config.Group.Name).Nodup ∧
    ((updateConfig (envOf docRoles [2, 7]) servedBefore).config.Groups.map
      config.Group.GIDNumber).Nodup :=
  ⟨by decide, group_names_and_gids_unique (envOf docRoles [2, 7]) servedBefore (by decide)⟩

/-- C8: in every snapshot published by a successful `updateConfig`, every
user's primary gid is 1000, the group list contains the group named `user`
with gid 1000, and a group with gid 1000 is named `user`, whatever roles the
source users list. -/
theorem default_group_is_primary (env : Env) (cfg : config.Config)
    (hok : (updateConfig env cfg).err = none) :
    (∀ u ∈ (updateConfig env cfg).config.Users, u.PrimaryGroup = 1000) ∧
    ({ Name := "user", GIDNumber := 1000 } : config.Group) ∈
      (updateConfig env cfg).config.Groups ∧
    ∀ g ∈ (updateConfig env cfg).config.Groups, g.GIDNumber = 1000 → g.Name = "user" := by
  obtain ⟨bytes, c, st, -, -, -, -, hnum, -, hU, hG⟩ := published env cfg hok
  refine ⟨?_, ?_, ?_⟩
  · intro u hu
    rw [hU] at hu
    obtain ⟨p, -, rfl⟩ := List.mem_map.mp hu
    rfl
  · rw [hG, mem_rangeOver_groups, hnum.1]
    exact (mem_zip_range_iff _ "user" 1000).mpr ⟨0, by rw [finalKeys_eq]; simp, rfl⟩
  · intro g hg h1000
    rw [hG, mem_rangeOver_groups, hnum.1, mem_zip_range_iff] at hg
    obtain ⟨k, hk, hgid⟩ := hg
    have hk0 : k = 0 := by omega
    subst hk0
    rw [finalKeys_eq] at hk
    simpa using hk.symm

/-- Witness for C8: the document in which user `b` lists the role `user`. -/
theorem default_group_is_primary_witness :
    (updateConfig (envOf docSkippedRoles [1]) servedBefore).err = none ∧
    (∀ u ∈ (updateConfig (envOf docSkippedRoles [1]) servedBefore).config.Users,
      u.PrimaryGroup = 1000) ∧
    ({ Name := "user", GIDNumber := 1000 } : config.Group) ∈
      (updateConfig (envOf docSkippedRoles [1]) servedBefore).config.Groups ∧
    ∀ g ∈ (updateConfig (envOf docSkippedRoles [1]) servedBefore).config.Groups,
      g.GIDNumber = 1000 → g.Name = "user" :=
  ⟨by decide, default_group_is_primary (envOf docSkippedRoles [1]) servedBefore (by decide)⟩

/-! ## Which users are published -/

/-- C9: on success the users of the snapshot are exactly, and in source order,
the projections of the source users whose passwords list is non-empty: a
source user with an empty passwords list does not appear, and every source
user with a non-empty passwords list appears once. -/
theorem users_are_kept_projected (env : Env) (cfg : config.Config) (bytes : List Nat)
    (c : caddyAuthConfig)
    (hread : env.ReadFile cfg.ConfigFile = .ok bytes) (hparse : env.Unmarshal bytes = .ok c)
    (hok : (updateConfig env cfg).err = none) :
    ∃ st, projectUsers 0 c.Users initState = .ok st ∧
      (updateConfig env cfg).config.Users
        = (c.Users.enum.filter fun p => hasPassword p.2).map (projected st.groups) ∧
      (c.Users.enum.filter fun p => hasPassword p.2).map Prod.snd
        = c.Users.filter fun u => decide (u.Passwords ≠ []) := by
  obtain ⟨st, -, hrun, -, -, hU, -⟩ := published_of_parsed env cfg bytes c hread hparse hok
  refine ⟨st, hrun, by rw [hU, keptFrom_zero], ?_⟩
  rw [← keptFrom_zero, keptFrom_map_snd]
  apply List.filter_congr
  intro u _
  cases hp : u.Passwords <;> simp [hasPassword, hp]

/-- Witness for C9: user `a` without passwords is omitted; user `b` is
published. -/
theorem users_are_kept_projected_witness :
    (updateConfig (envOf docSkipped []) servedBefore).err = none ∧
    ∃ st, projectUsers 0 docSkipped.Users initState = .ok st ∧
      (updateConfig (envOf docSkipped []) servedBefore).config.Users
        = (docSkipped.Users.enum.filter fun p => hasPassword p.2).map (projected st.groups) ∧
      (docSkipped.Users.enum.filter fun p => hasPassword p.2).map Prod.snd
        = docSkipped.Users.filter fun u => decide (u.Passwords ≠ []) :=
  ⟨by decide,
    users_are_kept_projected (envOf docSkipped []) servedBefore [] docSkipped rfl rfl
      (by decide)⟩

/-- Counterexample to C10: two source users of the same name, both with a
bcrypt password, are both published, so the user names of the snapshot are
not unique. -/
theorem duplicate_user_names_published :
    (updateConfig (envOf docTwins []) servedBefore).err = none ∧
    ¬ ((updateConfig (envOf docTwins []) servedBefore).config.Users.map
        config.User.Name).Nodup := by
  refine ⟨by decide, ?_⟩
  decide

/-- C10 (amended): on success the user names of the snapshot are the user
names of the source users with a non-empty passwords list, in source order;
they are unique if and only if those source names are pairwise distinct. -/
theorem user_names_unique_iff_source (env : Env) (cfg : config.Config) (bytes : List Nat)
    (c : caddyAuthConfig)
    (hread : env.ReadFile cfg.ConfigFile = .ok bytes) (hparse : env.Unmarshal bytes = .ok c)
    (hok : (updateConfig env cfg).err = none) :
    (updateConfig env cfg).config.Users.map config.User.Name
      = (c.Users.filter fun u => decide (u.Passwords ≠ [])).map caddyAuthUser.Username ∧
    (((updateConfig env cfg).config.Users.map config.User.Name).Nodup ↔
      ((c.Users.filter fun u => decide (u.Passwords ≠ [])).map
        caddyAuthUser.Username).Nodup) := by
  obtain ⟨st, -, -, -, -, hU, -⟩ := published_of_parsed env cfg bytes c hread hparse hok
  have hfilter : (c.Users.filter fun u => decide (u.Passwords ≠ []))
      = c.Users.filter hasPassword := by
    apply List.filter_congr
    intro u _
    cases hp : u.Passwords <;> simp [hasPassword, hp]
  have hnames : (updateConfig env cfg).config.Users.map config.User.Name
      = (c.Users.filter fun u => decide (u.Passwords ≠ [])).map caddyAuthUser.Username := by
    rw [hU, hfilter, ← keptFrom_map_snd c.Users 0, List.map_map, List.map_map]
    rfl
  exact ⟨hnames, by rw [hnames]⟩

/-- Witness for C10 (amended): the users `a` (skipped) and `b`. -/
theorem user_names_unique_iff_source_witness :
    (updateConfig (envOf docSkipped []) servedBefore).err = none ∧
    ((updateConfig (envOf docSkipped []) servedBefore).config.Users.map
      config.User.Name).Nodup :=
  ⟨by decide,
    (user_names_unique_iff_source (envOf docSkipped []) servedBefore [] docSkipped rfl rfl
      (by decide)).2.mpr (by decide)⟩

/-! ## Further helper facts -/

theorem mem_firstSeen (names : List String) :
    ∀ (seen : List String) (n : String), n ∈ firstSeen seen names ↔ n ∈ seen ∨ n ∈ names := by
  induction names with
  | nil => intro seen n; simp [firstSeen_nil]
  | cons a names ih =>
    intro seen n
    rw [firstSeen_cons, ih]
    by_cases ha : a ∈ seen
    · rw [firstSeen_single_of_mem seen a ha]
      constructor
      · rintro (h | h)
        · exact Or.inl h
        · exact Or.inr (List.mem_cons_of_mem _ h)
      · rintro (h | h)
        · exact Or.inl h
        · rcases List.mem_cons.mp h with rfl | h
          · exact Or.inl ha
          · exact Or.inr h
    · rw [firstSeen_single_of_not_mem seen a ha]
      simp only [List.mem_append, List.mem_singleton, List.mem_cons]
      tauto

theorem Numbered.index_of_mem {st : ProjState} {keys : List String} (h : Numbered st keys)
    (hnd : keys.Nodup) (n : String) (hn : n ∈ keys) :
    ∃ k, keys[k]? = some n ∧ st.groups.index n = 1000 + k := by
  obtain ⟨k, hk⟩ := List.mem_iff_getElem?.mp hn
  exact ⟨k, hk, by simp [GoMap.index, h.get_of_getElem? hnd k n hk]⟩

theorem Numbered.index_injective {st : ProjState} {keys : List String} (h : Numbered st keys)
    (hnd : keys.Nodup) (a b : String) (ha : a ∈ keys) (hb : b ∈ keys)
    (hab : st.groups.index a = st.groups.index b) : a = b := by
  obtain ⟨i, hi, hia⟩ := h.index_of_mem hnd a ha
  obtain ⟨j, hj, hjb⟩ := h.index_of_mem hnd b hb
  have hij : i = j := by omega
  subst hij
  rw [hi] at hj
  exact Option.some.inj hj

/-- The user at position `j` of a published users list is the projection of
the kept source user at position `j`. -/
theorem published_user_at (users : List caddyAuthUser) (groups : GoMap String Nat)
    (served : List config.User)
    (hU : served = (keptFrom 0 users).map (projected groups))
    (j : Nat) (u : config.User) (hj : served[j]? = some u) :
    ∃ p, u = projected groups p ∧ (users.filter hasPassword)[j]? = some p.2 ∧
      p.2 ∈ users ∧ hasPassword p.2 = true := by
  rw [hU, List.getElem?_map] at hj
  cases hp : (keptFrom 0 users)[j]? with
  | none => simp [hp] at hj
  | some p =>
    rw [hp] at hj
    simp only [Option.map_some', Option.some.injEq] at hj
    obtain ⟨hmem, hkept⟩ := mem_keptFrom users 0 p (List.mem_iff_getElem?.mpr ⟨j, hp⟩)
    refine ⟨p, hj.symm, ?_, hmem, hkept⟩
    rw [← keptFrom_map_snd users 0, List.getElem?_map, hp]
    rfl

theorem hasPassword_iff (user : caddyAuthUser) :
    hasPassword user = true ↔ ∃ pw tl, user.Passwords = pw :: tl := by
  cases hp : user.Passwords with
  | nil => simp [hasPassword, hp]
  | cons pw tl => simp [hasPassword, hp]

theorem rangeOver_singleton {α : Type} (cs : List Nat) (a : α) : rangeOver cs [a] = [a] := by
  cases cs with
  | nil => rfl
  | cons c cs =>
    cases cs <;> simp [rangeOver, Nat.mod_one]

/-! ## encoding/hex: encoding and decoding -/

theorem hex.fromHexChar_hextable (v : Nat) (hv : v < 16) :
    hex.fromHexChar (hex.hextable.getD v '0') = some v := by
  interval_cases v <;> decide

theorem hex.hextable_mem (v : Nat) (hv : v < 16) :
    hex.hextable.getD v '0' ∈ hex.hextable := by
  interval_cases v <;> decide

theorem hex.EncodeToString_data_cons (b : Nat) (bs : List Nat) :
    (hex.EncodeToString (b :: bs)).data
      = hex.hextable.getD (b / 16) '0' :: hex.hextable.getD (b % 16) '0'
          :: (hex.EncodeToString bs).data := by
  simp [hex.EncodeToString]

theorem hex.EncodeToString_length (bs : List Nat) :
    (hex.EncodeToString bs).length = 2 * bs.length := by
  induction bs with
  | nil => rfl
  | cons b bs ih =>
    have h := hex.EncodeToString_data_cons b bs
    simp only [String.length] at ih ⊢
    rw [h, List.length_cons, List.length_cons, ih, List.length_cons]
    omega

theorem hex.EncodeToString_digits (bs : List Nat) (hbs : ∀ b ∈ bs, b < 256) :
    ∀ ch ∈ (hex.EncodeToString bs).data, ch ∈ hex.hextable := by
  induction bs with
  | nil => intro ch hch; simp [hex.EncodeToString] at hch
  | cons b bs ih =>
    intro ch hch
    rw [hex.EncodeToString_data_cons] at hch
    have hb : b < 256 := hbs b (List.mem_cons_self _ _)
    rcases List.mem_cons.mp hch with rfl | hch
    · exact hex.hextable_mem _ (by omega)
    · rcases List.mem_cons.mp hch with rfl | hch
      · exact hex.hextable_mem _ (Nat.mod_lt _ (by decide))
      · exact ih (fun x hx => hbs x (List.mem_cons_of_mem _ hx)) ch hch

theorem hex.DecodeString_EncodeToString (bs : List Nat) (hbs : ∀ b ∈ bs, b < 256) :
    hex.DecodeString (hex.EncodeToString bs) = some bs := by
  induction bs with
  | nil => rfl
  | cons b bs ih =>
    have hb : b < 256 := hbs b (List.mem_cons_self _ _)
    have ih' := ih (fun x hx => hbs x (List.mem_cons_of_mem _ hx))
    simp only [hex.DecodeString] at ih' ⊢
    rw [hex.EncodeToString_data_cons, hex.decodeDigits,
      hex.fromHexChar_hextable _ (by omega), hex.fromHexChar_hextable _ (Nat.mod_lt _ (by decide)),
      ih']
    simp only [Option.some.injEq, List.cons.injEq, and_true]
    omega

theorem hex.EncodeToString_eq_empty_iff (bs : List Nat) :
    hex.EncodeToString bs = "" ↔ bs = [] := by
  constructor
  · intro h
    have hlen := hex.EncodeToString_length bs
    rw [h] at hlen
    have h0 : bs.length = 0 := by
      simp only [String.length, List.length_nil] at hlen
      omega
    exact List.length_eq_zero.mp h0
  · rintro rfl
    rfl

theorem bytesOf_lt (s : String) : ∀ b ∈ bytesOf s, b < 256 := by
  intro b hb
  simp only [bytesOf, List.mem_flatMap, List.mem_map] at hb
  obtain ⟨c, -, x, -, rfl⟩ := hb
  exact x.val.isLt

theorem bytesOf_length_go (cs : List Char) :
    (cs.flatMap fun c => (String.utf8EncodeChar c).map UInt8.toNat).length
      = String.utf8ByteSize.go cs := by
  induction cs with
  | nil => rfl
  | cons c cs ih =>
    simp only [List.flatMap_cons, List.length_append, List.length_map,
      String.length_utf8EncodeChar, ih, String.utf8ByteSize.go]
    omega

theorem bytesOf_length (s : String) : (bytesOf s).length = s.utf8ByteSize :=
  bytesOf_length_go s.data

theorem bytesOf_eq_nil_iff (s : String) : bytesOf s = [] ↔ s = "" := by
  constructor
  · intro h
    have hlen : String.utf8ByteSize.go s.data = 0 := by
      rw [← bytesOf_length_go]
      exact (congrArg List.length h).trans rfl
    cases hs : s.data with
    | nil => exact String.ext hs
    | cons c cs =>
      rw [hs, String.utf8ByteSize.go] at hlen
      have := c.utf8Size_pos
      omega
  · rintro rfl
    rfl

/-! ## The stored password hash -/

/-- Counterexample to C11: a user whose bcrypt password entry has the empty
string as hash is published with an empty `PassBcrypt`. -/
theorem empty_hash_published :
    (updateConfig (envOf docEmptyHash []) servedBefore).err = none ∧
    ∃ u ∈ (updateConfig (envOf docEmptyHash []) servedBefore).config.Users,
      u.PassBcrypt = "" :=
  ⟨by decide, { Name := "a", UIDNumber := 1000, PrimaryGroup := 1000, OtherGroups := [],
                Mail := "", PassBcrypt := "" }, by decide, rfl⟩

/-- C11 (amended): every user of a published snapshot comes from a source user
with a non-empty passwords list, and its `PassBcrypt` is non-empty exactly
when the hash of that user's first password entry is non-empty. -/
theorem bcrypt_hash_nonempty_iff (env : Env) (cfg : config.Config) (bytes : List Nat)
    (c : caddyAuthConfig)
    (hread : env.ReadFile cfg.ConfigFile = .ok bytes) (hparse : env.Unmarshal bytes = .ok c)
    (hok : (updateConfig env cfg).err = none) :
    ∀ (j : Nat) (u : config.User), (updateConfig env cfg).config.Users[j]? = some u →
      ∃ su pw tl, (c.Users.filter hasPassword)[j]? = some su ∧ su.Passwords = pw :: tl ∧
        (u.PassBcrypt ≠ "" ↔ pw.Hash ≠ "") := by
  obtain ⟨st, -, -, -, -, hU, -⟩ := published_of_parsed env cfg bytes c hread hparse hok
  intro j u hj
  obtain ⟨p, rfl, hp, -, hkept⟩ := published_user_at c.Users st.groups _ hU j u hj
  obtain ⟨pw, tl, hpw⟩ := (hasPassword_iff p.2).mp hkept
  refine ⟨p.2, pw, tl, hp, hpw, ?_⟩
  simp only [projected, hpw, ne_eq, hex.EncodeToString_eq_empty_iff, bytesOf_eq_nil_iff]

/-- Witness for C11 (amended): the minimal document, whose hash is `h`. -/
theorem bcrypt_hash_nonempty_iff_witness :
    (updateConfig (envOf docMinimal []) servedBefore).err = none ∧
    ∃ su pw tl, (docMinimal.Users.filter hasPassword)[0]? = some su ∧
      su.Passwords = pw :: tl ∧ (("68" : String) ≠ "" ↔ pw.Hash ≠ "") :=
  ⟨by decide,
    bcrypt_hash_nonempty_iff (envOf docMinimal []) servedBefore [] docMinimal rfl rfl
      (by decide) 0
      { Name := "a", UIDNumber := 1000, PrimaryGroup := 1000, OtherGroups := [],
        Mail := "", PassBcrypt := "68" } (by decide)⟩

/-! ## Other groups of a user -/

/-- C12: for every user of a published snapshot, `OtherGroups` has the length
of the user's source roles list, and its element at each position is the gid
of the snapshot group whose name is the role name at that position. -/
theorem other_gids_follow_roles (env : Env) (cfg : config.Config) (bytes : List Nat)
    (c : caddyAuthConfig)
    (hread : env.ReadFile cfg.ConfigFile = .ok bytes) (hparse : env.Unmarshal bytes = .ok c)
    (hok : (updateConfig env cfg).err = none) :
    ∀ (j : Nat) (u : config.User), (updateConfig env cfg).config.Users[j]? = some u →
      ∃ su, (c.Users.filter hasPassword)[j]? = some su ∧
        u.OtherGroups.length = su.Roles.length ∧
        ∀ (m : Nat) (r : Role), su.Roles[m]? = some r →
          ∃ gid, u.OtherGroups[m]? = some gid ∧
            ({ Name := r.Name, GIDNumber := gid } : config.Group) ∈
              (updateConfig env cfg).config.Groups := by
  obtain ⟨st, -, -, -, hsome, hU, hG⟩ := published_of_parsed env cfg bytes c hread hparse hok
  intro j u hj
  obtain ⟨p, rfl, hp, hmem, hkept⟩ := published_user_at c.Users st.groups _ hU j u hj
  refine ⟨p.2, hp, by simp [projected], ?_⟩
  intro m r hr
  obtain ⟨v, hv⟩ := Option.isSome_iff_exists.mp
    (hsome p.2 hmem hkept r (List.mem_iff_getElem?.mpr ⟨m, hr⟩))
  refine ⟨v, by simp [projected, hr, GoMap.index, hv], ?_⟩
  rw [hG, mem_rangeOver_groups]
  exact GoMap.mem_of_get _ _ _ hv

/-- Witness for C12: user `b` of the document with roles ops, admin has the
other gids 1002, 1001. -/
theorem other_gids_follow_roles_witness :
    (updateConfig (envOf docRoles [0, 1]) servedBefore).err = none ∧
    ∃ su, (docRoles.Users.filter hasPassword)[1]? = some su ∧
      [1002, 1001].length = su.Roles.length ∧
      ∀ (m : Nat) (r : Role), su.Roles[m]? = some r →
        ∃ gid, [1002, 1001][m]? = some gid ∧
          ({ Name := r.Name, GIDNumber := gid } : config.Group) ∈
            (updateConfig (envOf docRoles [0, 1]) servedBefore).config.Groups :=
  ⟨by decide,
    other_gids_follow_roles (envOf docRoles [0, 1]) servedBefore [] docRoles rfl rfl
      (by decide) 1
      { Name := "b", UIDNumber := 1001, PrimaryGroup := 1000, OtherGroups := [1002, 1001],
        Mail := "", PassBcrypt := "68" } (by decide)⟩

/-- Counterexample to C13: a user that lists the role admin twice is published
with the gid 1001 twice in `OtherGroups`. -/
theorem repeated_role_repeats_gid :
    (updateConfig (envOf docRoleTwice []) servedBefore).err = none ∧
    ∃ u ∈ (updateConfig (envOf docRoleTwice []) servedBefore).config.Users,
      u.OtherGroups = [1001, 1001] ∧ ¬ u.OtherGroups.Nodup :=
  ⟨by decide, { Name := "a", UIDNumber := 1000, PrimaryGroup := 1000,
                OtherGroups := [1001, 1001], Mail := "", PassBcrypt := "68" },
    by decide, rfl, by decide⟩

/-- C13 (amended): for every user of a published snapshot, no gid occurs twice
in `OtherGroups` if and only if the source user lists no role name twice. -/
theorem other_gids_nodup_iff_roles (env : Env) (cfg : config.Config) (bytes : List Nat)
    (c : caddyAuthConfig)
    (hread : env.ReadFile cfg.ConfigFile = .ok bytes) (hparse : env.Unmarshal bytes = .ok c)
    (hok : (updateConfig env cfg).err = none) :
    ∀ (j : Nat) (u : config.User), (updateConfig env cfg).config.Users[j]? = some u →
      ∃ su, (c.Users.filter hasPassword)[j]? = some su ∧
        (u.OtherGroups.Nodup ↔ (rolesOf su).Nodup) := by
  obtain ⟨st, -, -, hnum, hsome, hU, -⟩ :=
    published_of_parsed env cfg bytes c hread hparse hok
  intro j u hj
  obtain ⟨p, rfl, hp, hmem, hkept⟩ := published_user_at c.Users st.groups _ hU j u hj
  refine ⟨p.2, hp, ?_⟩
  have hgids : (projected st.groups p).OtherGroups
      = (rolesOf p.2).map fun n => st.groups.index n := by
    simp [projected, rolesOf, List.map_map, Function.comp_def]
  have hkeys : ∀ n ∈ rolesOf p.2, n ∈ firstSeen ["user"] (keptRoleNames c.Users) := by
    intro n hn
    obtain ⟨r, hr, rfl⟩ := List.mem_map.mp hn
    by_contra hnot
    have hnone := (hnum.lookup_none_iff r.Name).mpr hnot
    have := hsome p.2 hmem hkept r hr
    rw [hnone] at this
    cases this
  rw [hgids]
  constructor
  · exact List.Nodup.of_map _
  · exact List.Nodup.map_on fun a ha b hb hab =>
      hnum.index_injective (finalKeys_nodup c.Users) a b (hkeys a ha) (hkeys b hb) hab

/-- Witness for C13 (amended): user `a` of the document with roles admin, ops
has the distinct other gids 1001, 1002. -/
theorem other_gids_nodup_iff_roles_witness :
    (updateConfig (envOf docRoles []) servedBefore).err = none ∧
    ∃ su, (docRoles.Users.filter hasPassword)[0]? = some su ∧
      ([1001, 1002].Nodup ↔ (rolesOf su).Nodup) :=
  ⟨by decide,
    other_gids_nodup_iff_roles (envOf docRoles []) servedBefore [] docRoles rfl rfl
      (by decide) 0
      { Name := "a", UIDNumber := 1000, PrimaryGroup := 1000, OtherGroups := [1001, 1002],
        Mail := "", PassBcrypt := "68" } (by decide)⟩

/-! ## The hash is stored in hexadecimal -/

/-- C14: for every user of a published snapshot, `PassBcrypt` is the lowercase
hexadecimal encoding of the bytes of the hash of the user's first password
entry: its length is twice the byte length of the hash, all its characters
are digits of the table `0123456789abcdef`, and decoding it gives the bytes of
the hash back, in order. -/
theorem bcrypt_hash_is_hex_of_hash (env : Env) (cfg : config.Config) (bytes : List Nat)
    (c : caddyAuthConfig)
    (hread : env.ReadFile cfg.ConfigFile = .ok bytes) (hparse : env.Unmarshal bytes = .ok c)
    (hok : (updateConfig env cfg).err = none) :
    ∀ (j : Nat) (u : config.User), (updateConfig env cfg).config.Users[j]? = some u →
      ∃ su pw tl, (c.Users.filter hasPassword)[j]? = some su ∧ su.Passwords = pw :: tl ∧
        u.PassBcrypt = hex.EncodeToString (bytesOf pw.Hash) ∧
        u.PassBcrypt.length = 2 * (bytesOf pw.Hash).length ∧
        (bytesOf pw.Hash).length = pw.Hash.utf8ByteSize ∧
        (∀ ch ∈ u.PassBcrypt.data, ch ∈ "0123456789abcdef".toList) ∧
        hex.DecodeString u.PassBcrypt = some (bytesOf pw.Hash) := by
  obtain ⟨st, -, -, -, -, hU, -⟩ := published_of_parsed env cfg bytes c hread hparse hok
  intro j u hj
  obtain ⟨p, rfl, hp, -, hkept⟩ := published_user_at c.Users st.groups _ hU j u hj
  obtain ⟨pw, tl, hpw⟩ := (hasPassword_iff p.2).mp hkept
  have hhash : (projected st.groups p).PassBcrypt = hex.EncodeToString (bytesOf pw.Hash) := by
    simp only [projected, hpw]
  refine ⟨p.2, pw, tl, hp, hpw, hhash, ?_, bytesOf_length pw.Hash, ?_, ?_⟩
  · rw [hhash]
    exact hex.EncodeToString_length _
  · rw [hhash]
    exact hex.EncodeToString_digits _ (bytesOf_lt pw.Hash)
  · rw [hhash]
    exact hex.DecodeString_EncodeToString _ (bytesOf_lt pw.Hash)

/-- Witness for C14: the hash `h` of the minimal document is stored as `68`. -/
theorem bcrypt_hash_is_hex_of_hash_witness :
    (updateConfig (envOf docMinimal []) servedBefore).err = none ∧
    ∃ su pw tl, (docMinimal.Users.filter hasPassword)[0]? = some su ∧
      su.Passwords = pw :: tl ∧
      ("68" : String) = hex.EncodeToString (bytesOf pw.Hash) ∧
      ("68" : String).length = 2 * (bytesOf pw.Hash).length ∧
      (bytesOf pw.Hash).length = pw.Hash.utf8ByteSize ∧
      (∀ ch ∈ ("68" : String).data, ch ∈ "0123456789abcdef".toList) ∧
      hex.DecodeString "68" = some (bytesOf pw.Hash) :=
  ⟨by decide,
    bcrypt_hash_is_hex_of_hash (envOf docMinimal []) servedBefore [] docMinimal rfl rfl
      (by decide) 0
      { Name := "a", UIDNumber := 1000, PrimaryGroup := 1000, OtherGroups := [],
        Mail := "", PassBcrypt := "68" } (by decide)⟩

/-! ## Determinism -/

/-- Counterexample to C15: two runs on the same document and the same served
configuration, which differ only in the order in which `range` visits the
`groups` map, publish the groups in different orders. -/
theorem group_order_follows_map_iteration :
    (envOf docRoles []).ReadFile servedBefore.ConfigFile
      = (envOf docRoles [2]).ReadFile servedBefore.ConfigFile ∧
    (envOf docRoles []).Unmarshal [] = (envOf docRoles [2]).Unmarshal [] ∧
    (updateConfig (envOf docRoles []) servedBefore).config.Groups
      = [{ Name := "user", GIDNumber := 1000 }, { Name := "admin", GIDNumber := 1001 },
         { Name := "ops", GIDNumber := 1002 }] ∧
    (updateConfig (envOf docRoles [2]) servedBefore).config.Groups
      = [{ Name := "admin", GIDNumber := 1001 }, { Name := "ops", GIDNumber := 1002 },
         { Name := "user", GIDNumber := 1000 }] ∧
    (updateConfig (envOf docRoles []) servedBefore).config
      ≠ (updateConfig (envOf docRoles [2]) servedBefore).config :=
  ⟨rfl, rfl, by decide, by decide, by decide⟩

/-- C15 (amended): two runs of `updateConfig` on the same document return the
same error or both succeed; when they succeed they publish the same users in
the same order and the same groups up to the order of the group list, and the
same group list when `range` visits the `groups` map in the same order. -/
theorem projection_deterministic_up_to_group_order (env₁ env₂ : Env)
    (cfg₁ cfg₂ : config.Config) (bytes₁ bytes₂ : List Nat) (c : caddyAuthConfig)
    (hread₁ : env₁.ReadFile cfg₁.ConfigFile = .ok bytes₁)
    (hparse₁ : env₁.Unmarshal bytes₁ = .ok c)
    (hread₂ : env₂.ReadFile cfg₂.ConfigFile = .ok bytes₂)
    (hparse₂ : env₂.Unmarshal bytes₂ = .ok c) :
    (updateConfig env₁ cfg₁).err = (updateConfig env₂ cfg₂).err ∧
    ((updateConfig env₁ cfg₁).err = none →
      (updateConfig env₁ cfg₁).config.Users = (updateConfig env₂ cfg₂).config.Users ∧
      ((updateConfig env₁ cfg₁).config.Groups).Perm (updateConfig env₂ cfg₂).config.Groups ∧
      (env₁.rangeOrder = env₂.rangeOrder →
        (updateConfig env₁ cfg₁).config.Groups = (updateConfig env₂ cfg₂).config.Groups)) := by
  cases hrun : projectUsers 0 c.Users initState with
  | error e =>
    rw [updateConfig_of_error env₁ cfg₁ bytes₁ c e hread₁ hparse₁ hrun,
      updateConfig_of_error env₂ cfg₂ bytes₂ c e hread₂ hparse₂ hrun]
    exact ⟨rfl, fun h => by cases h⟩
  | ok st =>
    obtain ⟨he₁, hU₁, hG₁⟩ := updateConfig_of_ok env₁ cfg₁ bytes₁ c st hread₁ hparse₁ hrun
    obtain ⟨he₂, hU₂, hG₂⟩ := updateConfig_of_ok env₂ cfg₂ bytes₂ c st hread₂ hparse₂ hrun
    refine ⟨by rw [he₁, he₂], fun _ => ⟨by rw [hU₁, hU₂], ?_, ?_⟩⟩
    · rw [hG₁, hG₂]
      exact ((rangeOver_perm _ _).trans (rangeOver_perm _ _).symm).map _
    · intro horder
      rw [hG₁, hG₂, horder]

/-- Witness for C15 (amended): the two runs of the counterexample publish the
same users and the same groups up to order. -/
theorem projection_deterministic_up_to_group_order_witness :
    (updateConfig (envOf docRoles []) servedBefore).err = none ∧
    (updateConfig (envOf docRoles []) servedBefore).config.Users
      = (updateConfig (envOf docRoles [2]) servedBefore).config.Users ∧
    ((updateConfig (envOf docRoles []) servedBefore).config.Groups).Perm
      (updateConfig (envOf docRoles [2]) servedBefore).config.Groups :=
  have h := (projection_deterministic_up_to_group_order (envOf docRoles [])
    (envOf docRoles [2]) servedBefore servedBefore [] [] docRoles rfl rfl rfl rfl).2
    (by decide)
  ⟨by decide, h.1, h.2.1⟩

/-! ## The empty document -/

/-- C16: for a source document with an empty users array, `updateConfig`
succeeds and publishes no user and exactly one group, `user` with gid 1000. -/
theorem empty_users_give_default_group (env : Env) (cfg : config.Config) (bytes : List Nat)
    (c : caddyAuthConfig)
    (hread : env.ReadFile cfg.ConfigFile = .ok bytes) (hparse : env.Unmarshal bytes = .ok c)
    (hempty : c.Users = []) :
    (updateConfig env cfg).err = none ∧
    (updateConfig env cfg).config.Users = [] ∧
    (updateConfig env cfg).config.Groups = [{ Name := "user", GIDNumber := 1000 }] := by
  have hrun : projectUsers 0 c.Users initState = .ok initState := by
    rw [hempty]
    rfl
  obtain ⟨he, hU, hG⟩ := updateConfig_of_ok env cfg bytes c initState hread hparse hrun
  refine ⟨he, hU, ?_⟩
  rw [hG]
  show (rangeOver env.rangeOrder [("user", 1000)]).map toGroup = _
  rw [rangeOver_singleton]
  rfl

/-- Witness for C16: the empty document replaces the served user and groups
by no user and the default group. -/
theorem empty_users_give_default_group_witness :
    docEmpty.Users = [] ∧
    (updateConfig (envOf docEmpty [5]) servedBefore).err = none ∧
    (updateConfig (envOf docEmpty [5]) servedBefore).config.Users = [] ∧
    (updateConfig (envOf docEmpty [5]) servedBefore).config.Groups
      = [{ Name := "user", GIDNumber := 1000 }] :=
  ⟨rfl, empty_users_give_default_group (envOf docEmpty [5]) servedBefore [] docEmpty
    rfl rfl rfl⟩

/-! ## The watcher loop -/

theorem consume_write_sets_changed (name : String) (op : Nat) (f : Flags)
    (h : op &&& fsnotify.Write = fsnotify.Write) :
    (consume (.event { Name := name, Op := op }) f).isChanged = true := by
  simp [consume, h]

theorem consume_remove_sets_both (name : String) (op : Nat) (f : Flags)
    (hw : op &&& fsnotify.Write ≠ fsnotify.Write)
    (h : op &&& fsnotify.Remove = fsnotify.Remove) :
    consume (.event { Name := name, Op := op }) f = { isChanged := true, isRemoved := true } := by
  simp [consume, hw, h]

theorem consume_no_event (f : Flags) (err : String) :
    consume .tick f = f ∧ consume (.error err) f = f :=
  ⟨rfl, rfl⟩

/-- C17 (the code at the failing input): a rename event on the watched path
sets neither flag; after it is consumed `isChanged` and `isRemoved` are still
false, because the `select` tests the bits `Write` and `Remove` only. -/
theorem rename_event_sets_no_flag :
    consume (.event { Name := "users.json", Op := fsnotify.Rename }) initFlags
      = { isChanged := false, isRemoved := false } := by
  decide

/-- Counterexample to C18: a component of the path prefix of the configuration
file is a file, so the path does not exist, but `os.Stat` fails with `ENOTDIR`,
for which `os.IsNotExist` is false. After a write event `updateConfig` is
called once and `isChanged` is cleared, where the claim says that for a path
that does not exist no reload is attempted and the flags keep their value. -/
theorem reload_attempted_under_enotdir :
    PathState.underFile.present = false ∧
    consume (.event { Name := "users.json", Op := fsnotify.Write }) initFlags
      = { isChanged := true, isRemoved := false } ∧
    (watcherIteration (envOf docMinimal [])
      (.event { Name := "users.json", Op := fsnotify.Write }) .underFile initFlags
      servedBefore).reloads = 1 ∧
    (watcherIteration (envOf docMinimal [])
      (.event { Name := "users.json", Op := fsnotify.Write }) .underFile initFlags
      servedBefore).flags
      ≠ consume (.event { Name := "users.json", Op := fsnotify.Write }) initFlags := by
  decide

/-- C18 (amended): in every iteration of the watcher loop, from any flags:
when after the event `os.Stat` of the configuration file does not fail with a
not-exist error and at least one flag is set, `updateConfig` is called exactly
once, its resulting configuration is the served one (whether it failed or
not) and both flags are false afterwards; when `os.Stat` fails with a
not-exist error or no flag is set, `updateConfig` is not called and flags and
configuration stay as they were after the event. For a path that exists
`os.Stat` never fails with a not-exist error, and it fails with one exactly
when the directory has no entry of that name. -/
theorem reload_once_and_clear (env : Env) (w : Wakeup) (path : PathState) (f : Flags)
    (cfg : config.Config) :
    ((os.IsNotExist (os.Stat path) = false ∧
        ((consume w f).isChanged = true ∨ (consume w f).isRemoved = true)) →
      (watcherIteration env w path f cfg).reloads = 1 ∧
      (watcherIteration env w path f cfg).config = (updateConfig env cfg).config ∧
      (watcherIteration env w path f cfg).flags
        = { isChanged := false, isRemoved := false }) ∧
    ((os.IsNotExist (os.Stat path) = true ∨
        ((consume w f).isChanged = false ∧ (consume w f).isRemoved = false)) →
      (watcherIteration env w path f cfg).reloads = 0 ∧
      (watcherIteration env w path f cfg).config = cfg ∧
      (watcherIteration env w path f cfg).flags = consume w f) ∧
    (path.present = true → os.IsNotExist (os.Stat path) = false) ∧
    (os.IsNotExist (os.Stat path) = true ↔ path = .missing) := by
  refine ⟨?_, ?_, ?_, ?_⟩
  · unfold watcherIteration
    generalize consume w f = g
    generalize os.IsNotExist (os.Stat path) = notExist
    obtain ⟨a, b⟩ := g
    cases notExist <;> cases a <;> cases b <;> simp [reload]
  · unfold watcherIteration
    generalize consume w f = g
    generalize os.IsNotExist (os.Stat path) = notExist
    obtain ⟨a, b⟩ := g
    cases notExist <;> cases a <;> cases b <;> simp [reload]
  · cases path <;> simp [PathState.present, os.Stat, os.IsNotExist]
  · cases path <;> simp [os.Stat, os.IsNotExist]

/-- Witness for C18 (amended): a remove event while a document with a `plain`
password is in place: one reload, which fails, and both flags are cleared. -/
theorem reload_once_and_clear_witness :
    (updateConfig (envOf docPlain []) servedBefore).err ≠ none ∧
    (watcherIteration (envOf docPlain [])
      (.event { Name := "users.json", Op := fsnotify.Remove }) .file initFlags
      servedBefore).reloads = 1 ∧
    (watcherIteration (envOf docPlain [])
      (.event { Name := "users.json", Op := fsnotify.Remove }) .file initFlags
      servedBefore).flags = { isChanged := false, isRemoved := false } :=
  have h := (reload_once_and_clear (envOf docPlain [])
    (.event { Name := "users.json", Op := fsnotify.Remove }) .file initFlags
    servedBefore).1 ⟨rfl, Or.inl (by decide)⟩
  ⟨by decide, h.1, h.2.2⟩

/-! ## The published group list -/

/-- C20: on success the groups of the snapshot are, up to the order of the
list, the default group `user` with gid 1000 followed by one group per
distinct role name other than `user` listed by a user with a non-empty
passwords list, numbered 1001, 1002, ... without gap in order of first
appearance; a name gets a group only if such a user lists it, and a role named
`user` contributes the gid 1000 to the other groups of the user. -/
theorem groups_are_default_plus_kept_roles (env : Env) (cfg : config.Config)
    (bytes : List Nat) (c : caddyAuthConfig)
    (hread : env.ReadFile cfg.ConfigFile = .ok bytes) (hparse : env.Unmarshal bytes = .ok c)
    (hok : (updateConfig env cfg).err = none) :
    ((updateConfig env cfg).config.Groups).Perm
      ({ Name := "user", GIDNumber := 1000 } ::
        ((distinctInOrder ((keptRoleNames c.Users).filter fun n => n ≠ "user")).zip
          (List.range' 1001
            (distinctInOrder ((keptRoleNames c.Users).filter fun n => n ≠ "user")).length)).map
          fun p => { Name := p.1, GIDNumber := p.2 }) ∧
    (distinctInOrder ((keptRoleNames c.Users).filter fun n => n ≠ "user")).Nodup ∧
    (∀ n, n ∈ distinctInOrder ((keptRoleNames c.Users).filter fun n => n ≠ "user") ↔
      (∃ su ∈ c.Users, su.Passwords ≠ [] ∧ n ∈ rolesOf su) ∧ n ≠ "user") ∧
    (∀ (j : Nat) (u : config.User), (updateConfig env cfg).config.Users[j]? = some u →
      ∃ su, (c.Users.filter hasPassword)[j]? = some su ∧
        ∀ m : Nat, (rolesOf su)[m]? = some "user" → u.OtherGroups[m]? = some 1000) := by
  obtain ⟨st, -, -, hnum, -, hU, hG⟩ := published_of_parsed env cfg bytes c hread hparse hok
  refine ⟨?_, ?_, ?_, ?_⟩
  · rw [hG]
    refine ((rangeOver_perm env.rangeOrder st.groups).map toGroup).trans ?_
    rw [hnum.1, finalKeys_eq]
    simp only [List.length_cons, List.range'_succ, List.zip_cons_cons, List.map_cons]
    exact List.Perm.refl _
  · exact firstSeen_nodup _ _ List.nodup_nil
  · intro n
    rw [distinctInOrder, mem_firstSeen]
    simp only [List.not_mem_nil, false_or, List.mem_filter, decide_eq_true_eq, keptRoleNames,
      List.mem_flatMap]
    constructor
    · rintro ⟨⟨su, hsu, hn⟩, hne⟩
      refine ⟨⟨su, hsu.1, ?_, hn⟩, hne⟩
      obtain ⟨pw, tl, hpw⟩ := (hasPassword_iff su).mp hsu.2
      simp [hpw]
    · rintro ⟨⟨su, hsu, hpw, hn⟩, hne⟩
      refine ⟨⟨su, ⟨hsu, ?_⟩, hn⟩, hne⟩
      cases hp : su.Passwords with
      | nil => exact absurd hp hpw
      | cons pw tl => simp [hasPassword, hp]
  · intro j u hj
    obtain ⟨p, rfl, hp, -, -⟩ := published_user_at c.Users st.groups _ hU j u hj
    refine ⟨p.2, hp, ?_⟩
    intro m hm
    have hget := hnum.get_of_getElem? (finalKeys_nodup c.Users) 0 "user"
      (by rw [finalKeys_eq]; simp)
    simp only [rolesOf, List.getElem?_map] at hm
    cases hr : p.2.Roles[m]? with
    | none => simp [hr] at hm
    | some r =>
      rw [hr] at hm
      simp only [Option.map_some', Option.some.injEq] at hm
      simp [projected, hr, GoMap.index, hm, hget]

/-- Witness for C20: user `a` is skipped, so its role x gets no group; user
`b` lists user and y, so the groups are user with gid 1000 and y with gid
1001. -/
theorem groups_are_default_plus_kept_roles_witness :
    (updateConfig (envOf docSkippedRoles [1]) servedBefore).err = none ∧
    ((updateConfig (envOf docSkippedRoles [1]) servedBefore).config.Groups).Perm
      [{ Name := "user", GIDNumber := 1000 }, { Name := "y", GIDNumber := 1001 }] :=
  ⟨by decide,
    (groups_are_default_plus_kept_roles (envOf docSkippedRoles [1]) servedBefore []
      docSkippedRoles rfl rfl (by decide)).1.trans (by decide)⟩

/-! ## Installing a snapshot, store by store -/

theorem appendGroups_eq (entries : List (String × Nat)) :
    ∀ cfg : config.Config,
      appendGroups cfg entries = (List.range' 1 entries.length).map fun k =>
        { cfg with Groups := cfg.Groups ++ (entries.take k).map toGroup } := by
  induction entries with
  | nil => intro cfg; rfl
  | cons p rest ih =>
    intro cfg
    simp only [appendGroups, List.length_cons, List.range'_succ, List.map_cons, ih]
    refine congrArg₂ List.cons ?_ ?_
    · simp [toGroup]
    · rw [show (1 + 1 : Nat) = 1 + 1 from rfl, ← List.map_add_range' 1 1 rest.length 1,
        List.map_map]
      apply List.map_congr_left
      intro k _
      simp [toGroup, Nat.add_comm 1 k, List.append_assoc]

theorem installStores_eq (cfg : config.Config) (users : List config.User)
    (entries : List (String × Nat)) :
    installStores cfg users entries
      = { cfg with Users := users } ::
        (List.range (entries.length + 1)).map fun k =>
          { cfg with Users := users, Groups := (entries.take k).map toGroup } := by
  simp only [installStores, appendGroups_eq, List.range_eq_range', List.range'_succ,
    List.map_cons]
  simp

theorem updateConfigStores_of_ok (env : Env) (cfg : config.Config) (bytes : List Nat)
    (c : caddyAuthConfig) (st : ProjState)
    (hread : env.ReadFile cfg.ConfigFile = .ok bytes) (hparse : env.Unmarshal bytes = .ok c)
    (hrun : projectUsers 0 c.Users initState = .ok st) :
    updateConfigStores env cfg
      = installStores cfg st.configUsers (rangeOver env.rangeOrder st.groups) := by
  simp only [updateConfigStores, hread, hparse, hrun]

theorem updateConfigStores_of_err (env : Env) (cfg : config.Config)
    (h : (updateConfig env cfg).err ≠ none) : updateConfigStores env cfg = [] := by
  cases hread : env.ReadFile cfg.ConfigFile with
  | error e => simp only [updateConfigStores, hread]
  | ok bytes =>
    cases hparse : env.Unmarshal bytes with
    | error e => simp only [updateConfigStores, hread, hparse]
    | ok c =>
      cases hrun : projectUsers 0 c.Users initState with
      | error e => simp only [updateConfigStores, hread, hparse, hrun]
      | ok st => exact absurd (updateConfig_of_ok env cfg bytes c st hread hparse hrun).1 h

theorem updateConfig_keeps_settings (env : Env) (cfg : config.Config) :
    (updateConfig env cfg).config.ConfigFile = cfg.ConfigFile ∧
    (updateConfig env cfg).config.Debug = cfg.Debug := by
  cases hread : env.ReadFile cfg.ConfigFile with
  | error e => simp only [updateConfig, hread, and_self]
  | ok bytes =>
    cases hparse : env.Unmarshal bytes with
    | error e => simp only [updateConfig, hread, hparse, and_self]
    | ok c =>
      cases hrun : projectUsers 0 c.Users initState with
      | error e => simp only [updateConfig, hread, hparse, hrun, and_self]
      | ok st => simp only [updateConfig, hread, hparse, hrun, and_self]

/-- Counterexample to C19: during a successful `updateConfig` the served
configuration passes through a state with the users of the new snapshot and
the groups of the old one, and through a state with a partly filled group
list; neither state is the old snapshot or the new one. -/
theorem install_passes_through_partial_states :
    (updateConfig (envOf docRoles []) servedBefore).err = none ∧
    (∃ s ∈ updateConfigStores (envOf docRoles []) servedBefore,
      s.Users = (updateConfig (envOf docRoles []) servedBefore).config.Users ∧
      s.Groups = servedBefore.Groups ∧
      s.Users ≠ servedBefore.Users ∧
      s.Groups ≠ (updateConfig (envOf docRoles []) servedBefore).config.Groups) ∧
    (∃ s ∈ updateConfigStores (envOf docRoles []) servedBefore,
      s.Users = (updateConfig (envOf docRoles []) servedBefore).config.Users ∧
      s.Groups = [{ Name := "user", GIDNumber := 1000 }] ∧
      s.Groups ≠ servedBefore.Groups ∧
      s.Groups ≠ (updateConfig (envOf docRoles []) servedBefore).config.Groups) :=
  ⟨by decide,
    ⟨{ servedBefore with
        Users := (updateConfig (envOf docRoles []) servedBefore).config.Users },
      by decide, rfl, rfl, by decide, by decide⟩,
    ⟨{ servedBefore with
        Users := (updateConfig (envOf docRoles []) servedBefore).config.Users
        Groups := [{ Name := "user", GIDNumber := 1000 }] },
      by decide, rfl, rfl, by decide, by decide⟩⟩

/-- C19 (amended): a successful `updateConfig` installs the snapshot by
separate stores to the served configuration: first the new users list, with
the old groups still in place, then the empty group list, then the new groups
appended one at a time; the states in between hold the new users together
with the old groups or with a prefix of the new group list, and only the last
store yields the new snapshot. A failing `updateConfig` makes no store. -/
theorem install_is_store_by_store (env : Env) (cfg : config.Config) :
    ((updateConfig env cfg).err = none →
      updateConfigStores env cfg
        = ({ cfg with Users := (updateConfig env cfg).config.Users } ::
          (List.range ((updateConfig env cfg).config.Groups.length + 1)).map fun k =>
            { cfg with
              Users := (updateConfig env cfg).config.Users
              Groups := (updateConfig env cfg).config.Groups.take k }) ∧
      (updateConfigStores env cfg).getLast? = some (updateConfig env cfg).config) ∧
    ((updateConfig env cfg).err ≠ none → updateConfigStores env cfg = []) := by
  refine ⟨?_, updateConfigStores_of_err env cfg⟩
  intro hok
  obtain ⟨bytes, c, st, hread, hparse, -, hrun, -, -, -, -⟩ := published env cfg hok
  obtain ⟨-, hU, hG⟩ := updateConfig_of_ok env cfg bytes c st hread hparse hrun
  obtain ⟨hF, hD⟩ := updateConfig_keeps_settings env cfg
  have hstores : updateConfigStores env cfg
      = { cfg with Users := (updateConfig env cfg).config.Users } ::
        (List.range ((updateConfig env cfg).config.Groups.length + 1)).map fun k =>
          { cfg with
            Users := (updateConfig env cfg).config.Users
            Groups := (updateConfig env cfg).config.Groups.take k } := by
    rw [updateConfigStores_of_ok env cfg bytes c st hread hparse hrun, installStores_eq,
      hU, hG]
    simp only [List.length_map, List.map_take]
  have hfinal : ({ cfg with
        Users := (updateConfig env cfg).config.Users
        Groups := (updateConfig env cfg).config.Groups } : config.Config)
      = (updateConfig env cfg).config := by
    cases hcfg : (updateConfig env cfg).config with
    | mk file debug users groups =>
      rw [hcfg] at hF hD
      simp only at hF hD
      rw [hF, hD]
  refine ⟨hstores, ?_⟩
  rw [hstores, List.range_succ, List.map_append, List.map_singleton,
    ← List.cons_append, List.getLast?_append, List.getLast?_singleton, List.take_length,
    hfinal]
  rfl

/-- Witness for C19 (amended): the stores of a reload of the document with
roles admin and ops over the served configuration. -/
theorem install_is_store_by_store_witness :
    (updateConfig (envOf docRoles []) servedBefore).err = none ∧
    (updateConfigStores (envOf docRoles []) servedBefore).length = 5 ∧
    (updateConfigStores (envOf docRoles []) servedBefore).getLast?
      = some (updateConfig (envOf docRoles []) servedBefore).config :=
  have h := (install_is_store_by_store (envOf docRoles []) servedBefore).1 (by decide)
  ⟨by decide, by rw [h.1]; decide, h.2⟩

end Glauthid
